import Mathlib

/-!
Verification of the support-placement and geometry-assembly core of
`bitsy-figurine.py` (conversion of 8x8 Bitsy sprites into 3D-printable
figurines).  The Python source is shallowly embedded below: pixel
coordinates become `ℤ × ℤ`, Python sets become `Finset`, the float
center-of-mass arithmetic becomes exact `ℚ` arithmetic (the float values
involved are small-denominator rationals whose comparisons and
floor/ceil agree with the exact rational values on 8x8 masks), and the
recursive flood fill `move_reachable_pixels` becomes a fuel-indexed
recursion (the fuel supplied at every call site is sufficient, which is
proved below).
-/

set_option linter.constructorNameAsVariable false

namespace BitsyFigurine

/-- A grid cell `(column, row)`; row `0` is the bottom sprite row and the
virtual base row sits at row `-1`. -/
abbrev Cell : Type := ℤ × ℤ

/-- The nine `(dx, dy)` offsets visited by the nested loops of
`move_reachable_pixels` (`for dx in (-1, 0, 1): for dy in (-1, 0, 1)`),
in Python's iteration order. -/
def offsets : List (ℤ × ℤ) :=
  [(-1,-1),(-1,0),(-1,1),(0,-1),(0,0),(0,1),(1,-1),(1,0),(1,1)]

/-- The neighbour `(x + dx, y + dy)` of a cell. -/
def nbr (c : Cell) (d : ℤ × ℤ) : Cell := (c.1 + d.1, c.2 + d.2)

/-- `move_reachable_pixels(from_set, to_set, xy)` embedded with explicit
state passing and a fuel argument bounding the recursion depth (the
Python recursion enters a cell only while it is still in `from_set` and
removes it on entry, so the needed depth never exceeds
`from_set.card + 1`; every call site below supplies sufficient fuel). -/
def mrp : Nat → Finset Cell → Finset Cell → Cell → Finset Cell × Finset Cell
  | 0, fromSet, toSet, _ => (fromSet, toSet)
  | n+1, fromSet, toSet, xy =>
    offsets.foldl
      (fun st d => if nbr xy d ∈ st.1 then mrp n st.1 st.2 (nbr xy d) else st)
      (if xy ∈ fromSet then (fromSet.erase xy, insert xy toSet) else (fromSet, toSet))

/-- `move_reachable_pixels` with the (sufficient) canonical fuel. -/
def mrpCall (fromSet toSet : Finset Cell) (xy : Cell) : Finset Cell × Finset Cell :=
  mrp (fromSet.card + 1) fromSet toSet xy

/-- The neighbour loop of one `move_reachable_pixels` level, as a named
function (definitionally the fold inside `mrp`). -/
def mrpFold (n : Nat) (xy : Cell) (ds : List (ℤ × ℤ)) (st : Finset Cell × Finset Cell) :
    Finset Cell × Finset Cell :=
  ds.foldl (fun st d => if nbr xy d ∈ st.1 then mrp n st.1 st.2 (nbr xy d) else st) st

/-- The eight virtual base columns (`for x in range(8)`). -/
def baseCols : List ℤ := [0, 1, 2, 3, 4, 5, 6, 7]

/-- The seeding phase of `Figurine.iter_supports`: starting from
`unsupported = all pixels` and `supported_by_base = ∅`, flood-fill from
each virtual base cell `(x, -1)`.  Returns the final
`(unsupported, supported_by_base)` pair. -/
def supportedSplit (pixels : Finset Cell) : Finset Cell × Finset Cell :=
  baseCols.foldl (fun st x => mrpCall st.1 st.2 (x, -1)) (pixels, ∅)

/-- Python `int()` applied to a rational: truncation toward zero. -/
def pyInt (q : ℚ) : ℤ := if 0 ≤ q then ⌊q⌋ else -⌊-q⌋

/-- `lowest_y = min(y for (x, y) in group)` (groups are nonempty in the
program; the `0` default of the embedding is never reached there). -/
def lowestRow (g : Finset Cell) : ℤ := (g.image Prod.snd).min.untop' 0

/-- `center_x = sum(x for (x, y) in group) / len(group)`. -/
def centerX (g : Finset Cell) : ℚ := (∑ c ∈ g, (c.1 : ℚ)) / (g.card : ℚ)

/-- `lowest_x_list = [x for (x, y) in group if y == lowest_y]` as the set
of listed columns (the list's iteration order is irrelevant: the program
only tests membership and takes the first element of the sorted
distance/column pairs). -/
def lowestXs (g : Finset Cell) : Finset ℤ :=
  (g.filter (fun c => c.2 = lowestRow g)).image Prod.fst

/-- `distances = [(abs(center_x - x), x) for x in lowest_x_list];
distances.sort(); support_x = distances[0][1]`: the first element of the
ascending sort of the distinct `(distance, column)` pairs is the column
of minimal distance, ties resolved toward the smaller column. -/
def closestLowestX (g : Finset Cell) : ℤ :=
  let c := centerX g
  let dmin : ℚ := ((lowestXs g).image (fun x : ℤ => |c - (x : ℚ)|)).min.untop' 0
  ((lowestXs g).filter (fun x : ℤ => |c - (x : ℚ)| = dmin)).min.untop' 0

/-- The strut placement column of `iter_supports`: the fractional center
of mass when both `int(center_x)` and `int(math.ceil(center_x))` lie on
the group's lowest row, else the closest lowest-row column. -/
def supportX (g : Finset Cell) : ℚ :=
  if pyInt (centerX g) ∈ lowestXs g ∧ ⌈centerX g⌉ ∈ lowestXs g then centerX g
  else ((closestLowestX g : ℤ) : ℚ)

/-- `max((y for (x, y) in supported_by_base if x == col and y < lowY), default=0)`. -/
def highestSupported (sbb : Finset Cell) (col lowY : ℤ) : ℤ :=
  ((sbb.filter (fun c => c.1 = col ∧ c.2 < lowY)).image Prod.snd).max.unbot' 0

/-- The strut computed for one disconnected `group` given
`supported_by_base`: the triple `(support_x, highest_supported,
lowest_y - highest_supported)` yielded by `iter_supports`. -/
def strutForGroup (sbb g : Finset Cell) : ℚ × ℤ × ℤ :=
  let sx := supportX g
  let ly := lowestRow g
  let bt := min (highestSupported sbb (pyInt sx) ly) (highestSupported sbb ⌈sx⌉ ly)
  (sx, bt, ly - bt)

/-- The group collected for a popped cell `a`: `group = {a}` then
`move_reachable_pixels(unsupported, group, a)` (the pop already removed
`a` from `unsupported`). -/
def groupOf (u : Finset Cell) (a : Cell) : Finset Cell := (mrpCall (u.erase a) {a} a).2

/-- The unsupported set remaining after collecting the group of `a`. -/
def restOf (u : Finset Cell) (a : Cell) : Finset Cell := (mrpCall (u.erase a) {a} a).1

/-- The while loop of `iter_supports`, in yield order: repeatedly pop an
unsupported cell (`pick` models Python's arbitrary `set.pop`, which
always returns a member; the inner `else []` branch is unreachable for
valid `pick` functions), collect its connected group, and yield the
group's strut. -/
def supportLoopList (pick : Finset Cell → Cell) (sbb : Finset Cell)
    (unsupported : Finset Cell) : List (ℚ × ℤ × ℤ) :=
  if _h : unsupported.Nonempty then
    if hxy : pick unsupported ∈ unsupported then
      strutForGroup sbb (groupOf unsupported (pick unsupported)) ::
        supportLoopList pick sbb (restOf unsupported (pick unsupported))
    else []
  else []
termination_by unsupported.card
decreasing_by
  have hsub : ∀ (fuel : Nat) (fs ts : Finset Cell) (c : Cell), (mrp fuel fs ts c).1 ⊆ fs := by
    intro fuel
    induction fuel with
    | zero => intro fs ts c; exact subset_rfl
    | succ n ih =>
      intro fs ts c
      rw [mrp]
      have hfold : ∀ (ds : List (ℤ × ℤ)) (st : Finset Cell × Finset Cell),
          (ds.foldl (fun st d => if nbr c d ∈ st.1 then mrp n st.1 st.2 (nbr c d) else st)
            st).1 ⊆ st.1 := by
        intro ds
        induction ds with
        | nil => intro st; exact subset_rfl
        | cons d ds ihds =>
          intro st
          simp only [List.foldl_cons]
          refine (ihds _).trans ?_
          split
          · exact ih _ _ _
          · exact subset_rfl
      refine (hfold offsets _).trans ?_
      split
      · exact Finset.erase_subset _ _
      · exact subset_rfl
  have h1 : restOf unsupported (pick unsupported) ⊆ unsupported.erase (pick unsupported) := by
    rw [restOf, mrpCall]
    exact hsub _ _ _ _
  exact lt_of_le_of_lt (Finset.card_le_card h1) (Finset.card_erase_lt_of_mem hxy)

/-- The set of struts yielded by the while loop (the claims below are
about the strut set; the list keeps the yield order for the geometry
assembly). -/
def supportLoop (pick : Finset Cell → Cell) (sbb unsupported : Finset Cell) :
    Finset (ℚ × ℤ × ℤ) :=
  (supportLoopList pick sbb unsupported).toFinset

/-- `Figurine.iter_supports` on a pixel set, parameterized by the
`set.pop` choice function, in yield order. -/
def iterSupportsList (pick : Finset Cell → Cell) (pixels : Finset Cell) :
    List (ℚ × ℤ × ℤ) :=
  supportLoopList pick (supportedSplit pixels).2 (supportedSplit pixels).1

/-- The set of struts emitted by `Figurine.iter_supports`. -/
def iterSupportsWith (pick : Finset Cell → Cell) (pixels : Finset Cell) :
    Finset (ℚ × ℤ × ℤ) :=
  (iterSupportsList pick pixels).toFinset

/-- A canonical, computable model of CPython's deterministic `set.pop`
order: pop the member with the least natural-number encoding. -/
def pickLow (s : Finset Cell) : Cell :=
  if h : s.Nonempty then
    ((Encodable.decode ((s.image Encodable.encode).min' (h.image _)) : Option Cell).getD (0, 0))
  else (0, 0)

/-- A second valid pop order (largest encoding first), used to witness
order-independence. -/
def pickHigh (s : Finset Cell) : Cell :=
  if h : s.Nonempty then
    ((Encodable.decode ((s.image Encodable.encode).max' (h.image _)) : Option Cell).getD (0, 0))
  else (0, 0)

/-- `BitsyImage`: one 8x8 sprite frame plus naming metadata. -/
structure BitsyImage where
  lines : List (List Char)
  name : String
  index : Nat
  ident : String
  blocktype : String

/-- `self.tag = '%s_%s.%s.%d' % (name, blocktype, ident, index)`. -/
def BitsyImage.tag (img : BitsyImage) : String :=
  img.name ++ "_" ++ img.blocktype ++ "." ++ img.ident ++ "." ++ toString img.index

/-- `BitsyImage.iter_pixels`: enumerate `(x, y)` for every '1' character,
with the line list reversed so row 0 is the bottom row. -/
def iterPixels (lines : List (List Char)) : List Cell :=
  (lines.reverse.enum).flatMap (fun p =>
    (p.2.enum).filterMap (fun q =>
      if q.2 = '1' then some ((q.1 : ℤ), (p.1 : ℤ)) else none))

/-- The pixel coordinate set of an image. -/
def BitsyImage.pixelSet (img : BitsyImage) : Finset Cell := (iterPixels img.lines).toFinset

/-- `BitsyImage.empty`: true iff `iter_pixels` yields nothing. -/
def BitsyImage.empty (img : BitsyImage) : Bool := (iterPixels img.lines).isEmpty

/-- `BitsyImage.xrange`: fold the pixel stream to a (min, max) column
pair, `(0, 0)` when empty. -/
def BitsyImage.xrange (img : BitsyImage) : ℤ × ℤ :=
  ((iterPixels img.lines).foldl
    (fun r c =>
      match r with
      | none => some (c.1, c.1)
      | some lohi => some (min lohi.1 c.1, max lohi.2 c.1))
    none).getD (0, 0)

/-- `pat` begins `s` (character-list version of Python substring-at). -/
def listLeads : List Char → List Char → Bool
  | [], _ => true
  | _ :: _, [] => false
  | p :: ps, c :: cs => p = c && listLeads ps cs

/-- Python `str.find`: the least index where `pat` occurs in the
remaining haystack (offset by `i`), else `-1`. -/
def strFindAux (pat : List Char) : ℤ → List Char → ℤ
  | i, [] => if pat = [] then i else -1
  | i, c :: rest => if listLeads pat (c :: rest) then i else strFindAux pat (i + 1) rest

/-- `App._filter_test`: an empty image is always excluded; with no
filters everything else passes; otherwise pass iff some filter occurs in
the image tag (`tag.find(f) >= 0`). -/
def filterTest (img : BitsyImage) (filters : List String) : Bool :=
  if img.empty then false
  else if filters.isEmpty then true
  else filters.any (fun f => 0 ≤ strFindAux f.toList 0 img.tag.toList)

/-- `str.lower` on one character (exact for ASCII, the alphabet the
sanitizer's character class distinguishes). -/
def pyLowerChar (c : Char) : Char :=
  if 'A' ≤ c ∧ c ≤ 'Z' then Char.ofNat (c.toNat + 32) else c

/-- The character class `[a-zA-Z0-9\.\-_]` of `_filename_for_string`. -/
def filenameAllowed (c : Char) : Bool :=
  ('a' ≤ c && c ≤ 'z') || ('A' ≤ c && c ≤ 'Z') || ('0' ≤ c && c ≤ '9') ||
    c = '.' || c = '-' || c = '_'

/-- One step of `re.subn('[^a-zA-Z0-9\.\-_]', '_', s)`: each character
outside the class becomes '_'. -/
def replaceDisallowed (c : Char) : Char := if filenameAllowed c then c else '_'

/-- `re.subn('_+', '_', s)`: every maximal run of underscores collapses
to a single underscore. -/
def collapseUnderscores : List Char → List Char
  | [] => []
  | [c] => [c]
  | a :: b :: rest =>
    if a = '_' ∧ b = '_' then collapseUnderscores (b :: rest)
    else a :: collapseUnderscores (b :: rest)

/-- `Figurine._filename_for_string`: lowercase, replace disallowed
characters by '_', collapse underscore runs, append the extension. -/
def filenameForString (s : String) (ext : String) : String :=
  String.mk (collapseUnderscores ((s.toList.map pyLowerChar).map replaceDisallowed)) ++ ext

/-- Spec-side sanitizer, written independently from the (amended) spec
wording: lowercase the input, map each character outside
alphanumeric/{., -, _} to '_', and drop an underscore whenever the next
kept character is also an underscore. -/
def specSanitize (s : String) : String :=
  String.mk
    ((s.toList.map (fun c => replaceDisallowed (pyLowerChar c))).foldr
      (fun c acc => if c = '_' ∧ acc.head? = some '_' then acc else c :: acc) [])

/-- Python `str.split('\n')` on a character list. -/
def splitNl : List Char → List (List Char)
  | [] => [[]]
  | c :: rest =>
    match splitNl rest with
    | [] => [[]]
    | l :: ls => if c = '\n' then [] :: l :: ls else (c :: l) :: ls

/-- `custom_text_lines = (self.custom_text + '\n\n').split('\n')`. -/
def customTextLines (t : String) : List (List Char) :=
  splitNl (t.toList ++ ['\n', '\n'])

/-- `openscad_str`: encode a string as explicit character codes,
`str(chr(..),chr(..),...)`. -/
def openscadStr (s : List Char) : String :=
  "str(" ++ String.intercalate "," (s.map (fun c => "chr(" ++ toString c.toNat ++ ")")) ++ ")"

/-- The two custom-text strings embedded into the geometry description
(`custom_text_1`/`custom_text_2` of the template). -/
def customTexts (t : String) : String × String :=
  (openscadStr ((customTextLines t).getD 0 []), openscadStr ((customTextLines t).getD 1 []))

/-- `Figurine.tag`: image tag, extended with the custom text when the
custom text is nonempty. -/
def figTag (img : BitsyImage) (customText : String) : String :=
  if customText = "" then img.tag else img.tag ++ "_" ++ customText

/-- Stand-in for CPython's rendering of an int-or-float support
coordinate through `%s` (a fixed, injective function of the value; the
program's determinism is insensitive to the concrete digit strings). -/
def renderQ (q : ℚ) : String :=
  if q.den = 1 then toString q.num else toString q.num ++ "." ++ toString q.den

/-- Stand-in for Python `repr` of a string (`'// %(tag)r'` in the
template): quote and escape backslash, quote and newline. -/
def pyRepr (s : String) : String :=
  "'" ++
    String.mk
      (s.toList.flatMap (fun c =>
        if c = '\\' then ['\\', '\\']
        else if c = '\'' then ['\\', '\'']
        else if c = '\n' then ['\\', 'n']
        else [c])) ++
    "'"

/-- One line of the `openscad_pixel` template. -/
def openscadPixel (x y : ℤ) : String :=
  "        translate([" ++ toString x ++ "*unit, " ++ toString y ++
    "*unit]) offset(delta=pixel_glue) square(size=unit);"

/-- One line of the `openscad_support` template. -/
def openscadSupport (x : ℚ) (bt h : ℤ) : String :=
  "        translate([" ++ renderQ x ++ "*unit, " ++ toString bt ++
    "*unit]) square(size=[support_width, " ++ toString h ++ "*unit + pixel_glue*3]);"

/-- The `openscad_template` of the source with its substitutions applied
(OpenSCAD braces written via their character codes). -/
def openscadTemplate (tag displayname custom1 custom2 : String) (xmin xmax : ℤ)
    (numPixels numSupports : Nat) (pixels supports : String) : String :=
  "// " ++ pyRepr tag ++ "\n" ++
  "// pixels=" ++ toString numPixels ++ " supports=" ++ toString numSupports ++ "\n\n" ++
  "displayname = " ++ displayname ++ ";\n" ++
  "custom_text_1 = " ++ custom1 ++ ";\n" ++
  "custom_text_2 = " ++ custom2 ++ ";\n\n" ++
  "unit = 4;\n\n" ++
  "base_thick = 2.8;\nbase_border = 11;\nbase_round = 5;\n\n" ++
  "support_width = unit;\nsupport_thickness = unit / 3;\n\n" ++
  "label_size = 4;\nlabel_font_top = \"Consolas:style=Bold\";\n" ++
  "label_font_bottom = \"Consolas\";\nlabel_depth = 0.3;\nlabel_margin = 2;\n\n" ++
  "pixel_round = 1.0;\npixel_glue = 1.0;\n\n" ++
  "epsilon = 0.001;\nminimum_text_margin = 0.5;\n$fn = 16;\n\n" ++
  "base_width = (" ++ toString xmax ++ "-" ++ toString xmin ++
    "+1)*unit + 2*base_border;\n" ++
  "base_height = unit + base_border;\n\n" ++
  "// Entire figurine\nrotate([0, 0, 20])\nunion() \x7b\n\n" ++
  "    // Base\n    translate([" ++ toString xmin ++
    "*unit-base_border, -base_thick - pixel_glue + epsilon, unit + base_border])\n" ++
  "    rotate([-90, 0, 0])\n    difference() \x7b\n        union() \x7b\n" ++
  "            $fn = 40;\n\n            // Rounded pedestal\n" ++
  "            color(\"silver\")\n            linear_extrude(height=base_thick)\n" ++
  "            offset(r=base_round)\n            offset(delta=-base_round)\n" ++
  "            square(size=[base_width, base_height]);\n\n" ++
  "            // Raised text on topside\n            color(\"white\")\n" ++
  "            translate([0, 0, base_thick - label_depth])\n" ++
  "            linear_extrude(height=label_depth*2)\n            intersection() \x7b\n" ++
  "                translate([label_margin, label_margin + label_size * 0.25])\n" ++
  "                    text(text=displayname, size=label_size, font=label_font_top);\n" ++
  "                square(size=[base_width - minimum_text_margin, base_height]);\n" ++
  "            \x7d\n        \x7d\n\n        // Sunken text on underside\n" ++
  "        translate([label_margin, label_margin + label_size, label_depth])\n" ++
  "        rotate([180, 0, 0])\n        linear_extrude(height=label_depth*2)\n" ++
  "        union() \x7b\n" ++
  "            text(text=custom_text_1, size=label_size, font=label_font_bottom);\n" ++
  "            translate([0, label_size * -1.6])\n" ++
  "                text(text=custom_text_2, size=label_size, font=label_font_bottom);\n" ++
  "        \x7d\n    \x7d\n\n    // Pixel cubes with a bit of round offset\n" ++
  "    color(\"palegreen\")\n    linear_extrude(height=unit)\n" ++
  "    offset(r=pixel_round)\n    offset(delta=-pixel_round)\n    union()\n    \x7b\n" ++
  pixels ++ "\n    \x7d\n\n    // Support posts\n    color(\"white\")\n" ++
  "    linear_extrude(height=support_thickness)\n" ++
  "    translate([unit/2 - support_width/2, -pixel_glue - epsilon])\n" ++
  "    union()\n    \x7b\n" ++
  supports ++ "\n    \x7d\n\x7d\n"

/-- `Figurine.openscad_code`: assemble the full OpenSCAD script from the
image, the display name (a pure function of the image name and the
omission list, treated as an input here) and the custom text.  The strut
stream uses the canonical deterministic pop order, matching CPython's
deterministic iteration for a fixed program run. -/
def openscadCode (img : BitsyImage) (displayname : String) (customText : String) : String :=
  openscadTemplate (figTag img customText) (openscadStr displayname.toList)
    (customTexts customText).1 (customTexts customText).2
    (img.xrange).1 (img.xrange).2
    (iterPixels img.lines).length (iterSupportsList pickLow img.pixelSet).length
    (String.intercalate "\n" ((iterPixels img.lines).map (fun c => openscadPixel c.1 c.2)))
    (String.intercalate "\n"
      ((iterSupportsList pickLow img.pixelSet).map (fun s => openscadSupport s.1 s.2.1 s.2.2)))

/-! ### Specification-side notions (connectivity, spec characterizations) -/

/-- One flood-fill step inside a working set `u`: the target is a still
present horizontal/vertical/diagonal neighbour (or the cell itself, via
the `(0, 0)` offset). -/
def fillStep (u : Finset Cell) (a b : Cell) : Prop := b ∈ u ∧ b ∈ offsets.map (nbr a)

/-- Transitive 8-connected reachability through the working set `u`. -/
def reachW (u : Finset Cell) (a b : Cell) : Prop := Relation.ReflTransGen (fillStep u) a b

/-- A virtual base cell: rows `-1`, columns `0..7`. -/
def isBase (c : Cell) : Prop := c.2 = -1 ∧ 0 ≤ c.1 ∧ c.1 ≤ 7

/-- A cell lying on an emitted strut: one of the two bridged columns,
between `baseTop` and the group's lowest row. -/
def onStrut (s : ℚ × ℤ × ℤ) (c : Cell) : Prop :=
  (c.1 = ⌊s.1⌋ ∨ c.1 = ⌈s.1⌉) ∧ s.2.1 ≤ c.2 ∧ c.2 ≤ s.2.1 + s.2.2

/-- A cell occupied by printed or virtual material: a pixel, a virtual
base cell, or a strut cell. -/
def occupied (pixels : Finset Cell) (struts : Finset (ℚ × ℤ × ℤ)) (c : Cell) : Prop :=
  c ∈ pixels ∨ isBase c ∨ ∃ s ∈ struts, onStrut s c

/-- Adjacency between occupied cells (Chebyshev distance at most 1). -/
def connStep (pixels : Finset Cell) (struts : Finset (ℚ × ℤ × ℤ)) (a b : Cell) : Prop :=
  occupied pixels struts a ∧ occupied pixels struts b ∧
    (b.1 - a.1).natAbs ≤ 1 ∧ (b.2 - a.2).natAbs ≤ 1

/-- A pixel is base-reachable when some virtual base cell reaches it
through the mask. -/
def baseReach (pixels : Finset Cell) (c : Cell) : Prop :=
  ∃ x ∈ baseCols, reachW pixels ((x, -1) : Cell) c

/-- `b` is the highest row of `sbb` at column `col` strictly below `r`,
or `0` when no such row exists (the spec's wording for `baseTop`). -/
def IsHighestBelow (sbb : Finset Cell) (col r b : ℤ) : Prop :=
  ((col, b) ∈ sbb ∧ b < r ∧ ∀ y : ℤ, (col, y) ∈ sbb → y < r → y ≤ b) ∨
    (b = 0 ∧ ∀ y : ℤ, (col, y) ∈ sbb → ¬ y < r)

/-! ### Flood-fill characterization -/

theorem mrp_succ (n : Nat) (fs ts : Finset Cell) (xy : Cell) :
    mrp (n + 1) fs ts xy =
      mrpFold n xy offsets
        (if xy ∈ fs then (fs.erase xy, insert xy ts) else (fs, ts)) := rfl

theorem mrpFold_nil (n : Nat) (xy : Cell) (st : Finset Cell × Finset Cell) :
    mrpFold n xy [] st = st := rfl

theorem mrpFold_cons (n : Nat) (xy : Cell) (d : ℤ × ℤ) (ds : List (ℤ × ℤ))
    (st : Finset Cell × Finset Cell) :
    mrpFold n xy (d :: ds) st =
      mrpFold n xy ds (if nbr xy d ∈ st.1 then mrp n st.1 st.2 (nbr xy d) else st) := rfl

/-- The fold of one `mrp` level keeps shrinking `from_set`. -/
theorem mrpFold_fst_subset (n : Nat) (xy : Cell)
    (ih : ∀ fs ts c, (mrp n fs ts c).1 ⊆ fs) :
    ∀ (ds : List (ℤ × ℤ)) (st : Finset Cell × Finset Cell),
      (mrpFold n xy ds st).1 ⊆ st.1 := by
  intro ds
  induction ds with
  | nil => intro st; exact subset_rfl
  | cons d ds ihds =>
    intro st
    rw [mrpFold_cons]
    refine (ihds _).trans ?_
    split
    · exact ih _ _ _
    · exact subset_rfl

theorem mrp_fst_subset :
    ∀ (fuel : Nat) (fs ts : Finset Cell) (xy : Cell), (mrp fuel fs ts xy).1 ⊆ fs := by
  intro fuel
  induction fuel with
  | zero => intro fs ts xy; exact subset_rfl
  | succ n ih =>
    intro fs ts xy
    rw [mrp_succ]
    refine (mrpFold_fst_subset n xy ih offsets _).trans ?_
    split
    · exact Finset.erase_subset _ _
    · exact subset_rfl

theorem mrpCall_fst_subset (fs ts : Finset Cell) (xy : Cell) :
    (mrpCall fs ts xy).1 ⊆ fs := by
  rw [mrpCall]
  exact mrp_fst_subset (fs.card + 1) fs ts xy

theorem mrp_zero (fs ts : Finset Cell) (xy : Cell) : mrp 0 fs ts xy = (fs, ts) := rfl

theorem fillStep_mono {u v : Finset Cell} (huv : u ⊆ v) {a b : Cell} (h : fillStep u a b) :
    fillStep v a b := ⟨huv h.1, h.2⟩

theorem reachW_mono {u v : Finset Cell} (huv : u ⊆ v) {a b : Cell} (h : reachW u a b) :
    reachW v a b :=
  Relation.ReflTransGen.mono (fun _ _ hs => fillStep_mono huv hs) h

theorem reachW_head {u : Finset Cell} {a b c : Cell} (h1 : fillStep u a b)
    (h2 : reachW u b c) : reachW u a c := Relation.ReflTransGen.head h1 h2

/-- Composition of two "the working set shrank, the moved cells went to
the target set" shapes. -/
theorem shape_trans {a b c ta tb tc : Finset Cell} (h1 : b ⊆ a) (h3 : c ⊆ b)
    (h2 : tb = ta ∪ (a \ b)) (h4 : tc = tb ∪ (b \ c)) : tc = ta ∪ (a \ c) := by
  subst h2 h4
  ext x
  have hx1 := @h1 x
  have hx3 := @h3 x
  simp only [Finset.mem_union, Finset.mem_sdiff]
  tauto

theorem insert_shape {fs ts : Finset Cell} {xy : Cell} (h : xy ∈ fs) :
    insert xy ts = ts ∪ (fs \ fs.erase xy) := by
  ext x
  simp only [Finset.mem_insert, Finset.mem_union, Finset.mem_sdiff, Finset.mem_erase, not_and]
  constructor
  · rintro (rfl | hx)
    · exact Or.inr ⟨h, fun hne => absurd rfl hne⟩
    · exact Or.inl hx
  · rintro (hx | ⟨hxf, himp⟩)
    · exact Or.inr hx
    · by_cases hxe : x = xy
      · exact Or.inl hxe
      · exact absurd hxf (himp hxe)

theorem mrpFold_shape (n : Nat) (xy : Cell)
    (ih : ∀ fs ts c, (mrp n fs ts c).2 = ts ∪ (fs \ (mrp n fs ts c).1)) :
    ∀ (ds : List (ℤ × ℤ)) (st : Finset Cell × Finset Cell),
      (mrpFold n xy ds st).2 = st.2 ∪ (st.1 \ (mrpFold n xy ds st).1) := by
  intro ds
  induction ds with
  | nil => intro st; rw [mrpFold_nil]; simp
  | cons d ds ihds =>
    intro st
    rw [mrpFold_cons]
    set st' := if nbr xy d ∈ st.1 then mrp n st.1 st.2 (nbr xy d) else st with hst'
    have h1 : st'.1 ⊆ st.1 := by
      rw [hst']
      by_cases hg : nbr xy d ∈ st.1
      · rw [if_pos hg]; exact mrp_fst_subset n _ _ _
      · rw [if_neg hg]
    have h2 : st'.2 = st.2 ∪ (st.1 \ st'.1) := by
      rw [hst']
      by_cases hg : nbr xy d ∈ st.1
      · rw [if_pos hg]; exact ih _ _ _
      · rw [if_neg hg]; simp
    exact @shape_trans st.1 st'.1 (mrpFold n xy ds st').1 st.2 st'.2 (mrpFold n xy ds st').2
      h1 (mrpFold_fst_subset n xy (mrp_fst_subset n) ds st') h2 (ihds st')

theorem mrp_shape :
    ∀ (fuel : Nat) (fs ts : Finset Cell) (xy : Cell),
      (mrp fuel fs ts xy).2 = ts ∪ (fs \ (mrp fuel fs ts xy).1) := by
  intro fuel
  induction fuel with
  | zero => intro fs ts xy; rw [mrp_zero]; simp
  | succ n ih =>
    intro fs ts xy
    rw [mrp_succ]
    set st0 := if xy ∈ fs then (fs.erase xy, insert xy ts) else (fs, ts) with hst0
    have h1 : st0.1 ⊆ fs := by
      rw [hst0]
      by_cases hxy : xy ∈ fs
      · rw [if_pos hxy]; exact Finset.erase_subset _ _
      · rw [if_neg hxy]
    have h2 : st0.2 = ts ∪ (fs \ st0.1) := by
      rw [hst0]
      by_cases hxy : xy ∈ fs
      · rw [if_pos hxy]; exact insert_shape hxy
      · rw [if_neg hxy]; simp
    exact @shape_trans fs st0.1 (mrpFold n xy offsets st0).1 ts st0.2
      (mrpFold n xy offsets st0).2 h1 (mrpFold_fst_subset n xy (mrp_fst_subset n) offsets st0)
      h2 (mrpFold_shape n xy ih offsets st0)

theorem mrp_self_removed (fuel : Nat) (fs ts : Finset Cell) (xy : Cell) (h : 1 ≤ fuel) :
    xy ∉ (mrp fuel fs ts xy).1 := by
  obtain ⟨n, rfl⟩ : ∃ n, fuel = n + 1 := ⟨fuel - 1, by omega⟩
  rw [mrp_succ]
  have hgen : ∀ (ds : List (ℤ × ℤ)) (st : Finset Cell × Finset Cell),
      xy ∉ st.1 → xy ∉ (mrpFold n xy ds st).1 := by
    intro ds st h0 hmem
    exact h0 (Finset.mem_of_subset (mrpFold_fst_subset n xy (mrp_fst_subset n) ds st) hmem)
  apply hgen
  by_cases hxy : xy ∈ fs
  · rw [if_pos hxy]
    exact fun hmem => (Finset.mem_erase.mp hmem).1 rfl
  · rw [if_neg hxy]
    exact hxy

theorem mrpFold_sound (n : Nat) (xy : Cell) (fs : Finset Cell)
    (ih : ∀ fs' ts' c x, x ∈ fs' → x ∉ (mrp n fs' ts' c).1 → reachW fs' c x) :
    ∀ (ds : List (ℤ × ℤ)), (∀ d ∈ ds, d ∈ offsets) →
      ∀ (st : Finset Cell × Finset Cell), st.1 ⊆ fs →
        ∀ x ∈ st.1, x ∉ (mrpFold n xy ds st).1 → reachW fs xy x := by
  intro ds
  induction ds with
  | nil =>
    intro _ st _ x hx hnx
    rw [mrpFold_nil] at hnx
    exact absurd hx hnx
  | cons d ds ihds =>
    intro hds st hst x hx hnx
    rw [mrpFold_cons] at hnx
    by_cases hg : nbr xy d ∈ st.1
    · rw [if_pos hg] at hnx
      by_cases hx' : x ∈ (mrp n st.1 st.2 (nbr xy d)).1
      · exact ihds (fun d' hd' => hds d' (List.mem_cons_of_mem _ hd'))
          _ ((mrp_fst_subset n _ _ _).trans hst) x hx' hnx
      · have hr : reachW st.1 (nbr xy d) x := ih _ _ _ _ hx hx'
        have hstep : fillStep fs xy (nbr xy d) :=
          ⟨hst hg, List.mem_map_of_mem _ (hds d (List.mem_cons_self d ds))⟩
        exact reachW_head hstep (reachW_mono hst hr)
    · rw [if_neg hg] at hnx
      exact ihds (fun d' hd' => hds d' (List.mem_cons_of_mem _ hd')) st hst x hx hnx

theorem mrp_sound :
    ∀ (fuel : Nat) (fs ts : Finset Cell) (xy : Cell) (x : Cell),
      x ∈ fs → x ∉ (mrp fuel fs ts xy).1 → reachW fs xy x := by
  intro fuel
  induction fuel with
  | zero =>
    intro fs ts xy x hx hnx
    rw [mrp_zero] at hnx
    exact absurd hx hnx
  | succ n ih =>
    intro fs ts xy x hx hnx
    rw [mrp_succ] at hnx
    by_cases hxx : x = xy
    · subst hxx; exact Relation.ReflTransGen.refl
    · by_cases hxy : xy ∈ fs
      · rw [if_pos hxy] at hnx
        have hx' : x ∈ (fs.erase xy, insert xy ts).1 := Finset.mem_erase.mpr ⟨hxx, hx⟩
        exact mrpFold_sound n xy fs ih offsets (fun d hd => hd) _
          (Finset.erase_subset _ _) x hx' hnx
      · rw [if_neg hxy] at hnx
        exact mrpFold_sound n xy fs ih offsets (fun d hd => hd) (fs, ts) subset_rfl x hx hnx

theorem mrpFold_closed (n : Nat) (xy : Cell)
    (IHn : ∀ fs ts c, fs.card ≤ n → (c ∉ fs → fs.card + 1 ≤ n) →
      ∀ x, (x = c ∨ (x ∈ fs ∧ x ∉ (mrp n fs ts c).1)) →
        ∀ d ∈ offsets, nbr x d ∉ (mrp n fs ts c).1) :
    ∀ (ds : List (ℤ × ℤ)), (∀ d ∈ ds, d ∈ offsets) →
      ∀ (st : Finset Cell × Finset Cell), st.1.card ≤ n →
        (∀ d ∈ ds, nbr xy d ∉ (mrpFold n xy ds st).1) ∧
        (∀ c ∈ st.1, c ∉ (mrpFold n xy ds st).1 →
          ∀ d ∈ offsets, nbr c d ∉ (mrpFold n xy ds st).1) := by
  intro ds
  induction ds with
  | nil =>
    intro _ st _
    rw [mrpFold_nil]
    exact ⟨fun d hd => absurd hd (List.not_mem_nil d), fun c hc hnc => absurd hc hnc⟩
  | cons d ds ihds =>
    intro hds st hcard
    rw [mrpFold_cons]
    set st' := if nbr xy d ∈ st.1 then mrp n st.1 st.2 (nbr xy d) else st with hst'
    have hsub' : st'.1 ⊆ st.1 := by
      rw [hst']
      by_cases hg : nbr xy d ∈ st.1
      · rw [if_pos hg]; exact mrp_fst_subset n _ _ _
      · rw [if_neg hg]
    have hcard' : st'.1.card ≤ n := (Finset.card_le_card hsub').trans hcard
    have hdrop : ∀ c ∈ st.1, c ∉ st'.1 → ∀ d' ∈ offsets, nbr c d' ∉ st'.1 := by
      intro c hc hnc d' hd'
      rw [hst'] at hnc ⊢
      by_cases hg : nbr xy d ∈ st.1
      · rw [if_pos hg] at hnc ⊢
        exact IHn st.1 st.2 (nbr xy d) hcard (fun hcon => absurd hg hcon) c
          (Or.inr ⟨hc, hnc⟩) d' hd'
      · rw [if_neg hg] at hnc; exact absurd hc hnc
    have hd_out : nbr xy d ∈ st.1 → nbr xy d ∉ st'.1 := by
      intro hg
      rw [hst', if_pos hg]
      have hpos : 1 ≤ st.1.card := Finset.card_pos.mpr ⟨_, hg⟩
      exact mrp_self_removed n st.1 st.2 (nbr xy d) (by omega)
    obtain ⟨hA, hB⟩ := ihds (fun d' hd' => hds d' (List.mem_cons_of_mem _ hd')) st' hcard'
    have hressub : (mrpFold n xy ds st').1 ⊆ st'.1 :=
      mrpFold_fst_subset n xy (mrp_fst_subset n) ds st'
    constructor
    · intro d' hd'
      rcases List.mem_cons.mp hd' with rfl | hd'
      · by_cases hg : nbr xy d' ∈ st.1
        · exact fun hmem => (hd_out hg) (hressub hmem)
        · exact fun hmem => hg (hsub' (hressub hmem))
      · exact hA d' hd'
    · intro c hc hnc d' hd'
      by_cases hc' : c ∈ st'.1
      · exact hB c hc' hnc d' hd'
      · exact fun hmem => (hdrop c hc hc' d' hd') (hressub hmem)

theorem mrp_closed :
    ∀ (fuel : Nat) (fs ts : Finset Cell) (xy : Cell),
      fs.card ≤ fuel → (xy ∉ fs → fs.card + 1 ≤ fuel) →
      ∀ c, (c = xy ∨ (c ∈ fs ∧ c ∉ (mrp fuel fs ts xy).1)) →
        ∀ d ∈ offsets, nbr c d ∉ (mrp fuel fs ts xy).1 := by
  intro fuel
  induction fuel using Nat.strong_induction_on with
  | _ fuel IH =>
    rcases fuel with _ | n
    · intro fs ts xy h1 h2 c hc d hd
      have hfs : fs = ∅ := Finset.card_eq_zero.mp (Nat.le_zero.mp h1)
      subst hfs
      exact absurd (h2 (Finset.not_mem_empty xy)) (by omega)
    · intro fs ts xy h1 h2 c hc d hd
      rw [mrp_succ] at hc ⊢
      set st0 := if xy ∈ fs then (fs.erase xy, insert xy ts) else (fs, ts) with hst0
      have hcard0 : st0.1.card ≤ n := by
        rw [hst0]
        by_cases hxy : xy ∈ fs
        · rw [if_pos hxy]
          show (fs.erase xy).card ≤ n
          have hlt := Finset.card_erase_lt_of_mem hxy
          omega
        · rw [if_neg hxy]
          show fs.card ≤ n
          have := h2 hxy
          omega
      have IHn : ∀ fs' ts' c', fs'.card ≤ n → (c' ∉ fs' → fs'.card + 1 ≤ n) →
          ∀ x, (x = c' ∨ (x ∈ fs' ∧ x ∉ (mrp n fs' ts' c').1)) →
            ∀ d' ∈ offsets, nbr x d' ∉ (mrp n fs' ts' c').1 :=
        IH n (Nat.lt_succ_self n)
      obtain ⟨hA, hB⟩ := mrpFold_closed n xy IHn offsets (fun d' hd' => hd') st0 hcard0
      rcases hc with rfl | ⟨hcf, hcm⟩
      · exact hA d hd
      · by_cases hc0 : c ∈ st0.1
        · exact hB c hc0 hcm d hd
        · have hceq : c = xy := by
            rw [hst0] at hc0
            by_cases hxy : xy ∈ fs
            · rw [if_pos hxy] at hc0
              by_contra hne
              exact hc0 (Finset.mem_erase.mpr ⟨hne, hcf⟩)
            · rw [if_neg hxy] at hc0; exact absurd hcf hc0
          subst hceq
          exact hA d hd

theorem mrp_not_mem_of_reach (fuel : Nat) (fs ts : Finset Cell) (xy : Cell)
    (h1 : fs.card ≤ fuel) (h2 : xy ∉ fs → fs.card + 1 ≤ fuel) (c : Cell)
    (hreach : reachW fs xy c) :
    c = xy ∨ (c ∈ fs ∧ c ∉ (mrp fuel fs ts xy).1) := by
  induction hreach with
  | refl => exact Or.inl rfl
  | tail hab hbc ihab =>
    obtain ⟨hcf, hcm⟩ := hbc
    obtain ⟨d, hd, rfl⟩ := List.mem_map.mp hcm
    exact Or.inr ⟨hcf, mrp_closed fuel fs ts xy h1 h2 _ ihab d hd⟩

/-- Membership characterization of the cells left unmoved by
`move_reachable_pixels`: exactly the cells of `from_set` not 8-connected
to `xy` through `from_set`. -/
theorem mrp_fst_mem (fuel : Nat) (fs ts : Finset Cell) (xy : Cell)
    (h1 : fs.card ≤ fuel) (h2 : xy ∉ fs → fs.card + 1 ≤ fuel) (c : Cell) :
    c ∈ (mrp fuel fs ts xy).1 ↔ c ∈ fs ∧ ¬ reachW fs xy c := by
  constructor
  · intro hc
    refine ⟨mrp_fst_subset fuel fs ts xy hc, fun hr => ?_⟩
    rcases mrp_not_mem_of_reach fuel fs ts xy h1 h2 c hr with heq | ⟨_, hnc⟩
    · rw [heq] at hc
      have hcc : xy ∈ fs := mrp_fst_subset fuel fs ts xy hc
      have hpos : 1 ≤ fs.card := Finset.card_pos.mpr ⟨xy, hcc⟩
      exact mrp_self_removed fuel fs ts xy (by omega) hc
    · exact hnc hc
  · rintro ⟨hcf, hnr⟩
    by_contra hnc
    exact hnr (mrp_sound fuel fs ts xy c hcf hnc)

/-- Membership characterization of the cells moved to `to_set`:
the original `to_set` plus the cells of `from_set` 8-connected to `xy`
through `from_set`. -/
theorem mrp_snd_mem (fuel : Nat) (fs ts : Finset Cell) (xy : Cell)
    (h1 : fs.card ≤ fuel) (h2 : xy ∉ fs → fs.card + 1 ≤ fuel) (c : Cell) :
    c ∈ (mrp fuel fs ts xy).2 ↔ c ∈ ts ∨ (c ∈ fs ∧ reachW fs xy c) := by
  rw [mrp_shape fuel fs ts xy]
  simp only [Finset.mem_union, Finset.mem_sdiff]
  constructor
  · rintro (h | ⟨hf, hn⟩)
    · exact Or.inl h
    · rw [mrp_fst_mem fuel fs ts xy h1 h2 c] at hn
      push_neg at hn
      exact Or.inr ⟨hf, hn hf⟩
  · rintro (h | ⟨hf, hr⟩)
    · exact Or.inl h
    · refine Or.inr ⟨hf, ?_⟩
      rw [mrp_fst_mem fuel fs ts xy h1 h2 c]
      rintro ⟨_, hnr⟩
      exact hnr hr

theorem mrpCall_fst_mem (fs ts : Finset Cell) (xy : Cell) (c : Cell) :
    c ∈ (mrpCall fs ts xy).1 ↔ c ∈ fs ∧ ¬ reachW fs xy c := by
  rw [mrpCall]
  exact mrp_fst_mem (fs.card + 1) fs ts xy (Nat.le_succ fs.card) (fun _ => le_rfl) c

theorem mrpCall_snd_mem (fs ts : Finset Cell) (xy : Cell) (c : Cell) :
    c ∈ (mrpCall fs ts xy).2 ↔ c ∈ ts ∨ (c ∈ fs ∧ reachW fs xy c) := by
  rw [mrpCall]
  exact mrp_snd_mem (fs.card + 1) fs ts xy (Nat.le_succ fs.card) (fun _ => le_rfl) c

/-! ### Reachability toolbox -/

theorem mem_nbrs_iff (a b : Cell) :
    b ∈ offsets.map (nbr a) ↔ (b.1 - a.1).natAbs ≤ 1 ∧ (b.2 - a.2).natAbs ≤ 1 := by
  simp only [offsets, nbr, List.map_cons, List.map_nil, List.mem_cons, List.not_mem_nil,
    or_false, Prod.ext_iff]
  omega

theorem nbrs_symm (a b : Cell) : b ∈ offsets.map (nbr a) ↔ a ∈ offsets.map (nbr b) := by
  rw [mem_nbrs_iff, mem_nbrs_iff]
  omega

theorem reachW_mem {u : Finset Cell} {a b : Cell} (h : reachW u a b) : b = a ∨ b ∈ u := by
  induction h with
  | refl => exact Or.inl rfl
  | tail _ hbc _ => exact Or.inr hbc.1

theorem reachW_symm {u : Finset Cell} {a b : Cell} (ha : a ∈ u) (h : reachW u a b) :
    reachW u b a := by
  induction h with
  | refl => exact Relation.ReflTransGen.refl
  | @tail m c hab hbc ih =>
    have hmid : m ∈ u := by
      rcases reachW_mem hab with heq | hm
      · rw [heq]; exact ha
      · exact hm
    exact Relation.ReflTransGen.head ⟨hmid, (nbrs_symm m c).mp hbc.2⟩ ih

/-- Restriction: a reach path whose endpoint avoids a step-closed
predicate `P` can be replayed inside any set containing the `P`-free
part of `u`. -/
theorem reachW_avoidP {u v : Finset Cell} {P : Cell → Prop}
    (hmem : ∀ q ∈ u, ¬ P q → q ∈ v)
    (hstep : ∀ p, P p → ∀ q, fillStep u p q → P q) {b c : Cell}
    (h : reachW u b c) (hc : ¬ P c) : reachW v b c := by
  revert hc
  induction h with
  | refl => intro _; exact Relation.ReflTransGen.refl
  | @tail m c' hbm hmc ih =>
    intro hc
    have hm : ¬ P m := fun hPm => hc (hstep m hPm c' hmc)
    exact Relation.ReflTransGen.tail (ih hm) ⟨hmem c' hmc.1 hc, hmc.2⟩

/-- A path from `a` inside `u` can avoid revisiting `a`. -/
theorem reachW_erase {u : Finset Cell} {a c : Cell} (h : reachW u a c) :
    c = a ∨ reachW (u.erase a) a c := by
  induction h with
  | refl => exact Or.inl rfl
  | @tail m c' hbm hmc ih =>
    by_cases hca : c' = a
    · exact Or.inl hca
    · right
      have hc'm : c' ∈ u.erase a := Finset.mem_erase.mpr ⟨hca, hmc.1⟩
      rcases ih with heq | hr
      · rw [heq] at hmc
        exact Relation.ReflTransGen.single ⟨hc'm, hmc.2⟩
      · exact Relation.ReflTransGen.tail hr ⟨hc'm, hmc.2⟩

/-! ### Group (connected component) characterization -/

theorem groupOf_mem (u : Finset Cell) (a : Cell) (ha : a ∈ u) (c : Cell) :
    c ∈ groupOf u a ↔ c ∈ u ∧ reachW u a c := by
  rw [groupOf, mrpCall_snd_mem]
  constructor
  · rintro (hc | ⟨hcu, hr⟩)
    · rw [Finset.mem_singleton] at hc
      subst hc
      exact ⟨ha, Relation.ReflTransGen.refl⟩
    · exact ⟨Finset.mem_of_mem_erase hcu,
        reachW_mono (Finset.erase_subset _ _) hr⟩
  · rintro ⟨hcu, hr⟩
    by_cases hca : c = a
    · left
      rw [Finset.mem_singleton]
      exact hca
    · right
      rcases reachW_erase hr with heq | hr'
      · exact absurd heq hca
      · have hm : c ∈ u.erase a := by
          rcases reachW_mem hr' with heq | hm
          · exact absurd heq hca
          · exact hm
        exact ⟨hm, hr'⟩

theorem restOf_mem (u : Finset Cell) (a : Cell) (ha : a ∈ u) (c : Cell) :
    c ∈ restOf u a ↔ c ∈ u ∧ ¬ reachW u a c := by
  rw [restOf, mrpCall_fst_mem]
  constructor
  · rintro ⟨hcu, hnr⟩
    refine ⟨Finset.mem_of_mem_erase hcu, fun hr => ?_⟩
    rcases reachW_erase hr with heq | hr'
    · exact (Finset.mem_erase.mp hcu).1 heq
    · exact hnr hr'
  · rintro ⟨hcu, hnr⟩
    refine ⟨Finset.mem_erase.mpr ⟨fun hca => hnr ?_, hcu⟩,
      fun hr' => hnr (reachW_mono (Finset.erase_subset _ _) hr')⟩
    subst hca
    exact Relation.ReflTransGen.refl

theorem restOf_subset (u : Finset Cell) (a : Cell) : restOf u a ⊆ u.erase a := by
  rw [restOf]
  exact mrpCall_fst_subset _ _ _

theorem mem_groupOf_self (u : Finset Cell) (a : Cell) (ha : a ∈ u) : a ∈ groupOf u a := by
  rw [groupOf_mem u a ha a]
  exact ⟨ha, Relation.ReflTransGen.refl⟩

theorem groupOf_subset (u : Finset Cell) (a : Cell) (ha : a ∈ u) : groupOf u a ⊆ u := by
  intro c hc
  rw [groupOf_mem u a ha c] at hc
  exact hc.1

theorem restOf_eq_sdiff (u : Finset Cell) (a : Cell) (ha : a ∈ u) :
    restOf u a = u \ groupOf u a := by
  ext c
  rw [restOf_mem u a ha, Finset.mem_sdiff, groupOf_mem u a ha]
  tauto

theorem mem_groupOf_symm (u : Finset Cell) (a b : Cell) (ha : a ∈ u) (hb : b ∈ u) :
    b ∈ groupOf u a ↔ a ∈ groupOf u b := by
  rw [groupOf_mem u a ha, groupOf_mem u b hb]
  exact ⟨fun h => ⟨ha, reachW_symm ha h.2⟩, fun h => ⟨hb, reachW_symm hb h.2⟩⟩

theorem groupOf_eq_of_mem (u : Finset Cell) (a b : Cell) (ha : a ∈ u) (hb : b ∈ u)
    (hmem : b ∈ groupOf u a) : groupOf u b = groupOf u a := by
  rw [groupOf_mem u a ha b] at hmem
  have hab : reachW u a b := hmem.2
  have hba : reachW u b a := reachW_symm ha hab
  ext c
  rw [groupOf_mem u b hb c, groupOf_mem u a ha c]
  exact ⟨fun h => ⟨h.1, hab.trans h.2⟩, fun h => ⟨h.1, hba.trans h.2⟩⟩

/-- Removing a different connected component does not change a cell's
component. -/
theorem groupOf_sdiff (u : Finset Cell) (a b : Cell) (ha : a ∈ u) (hb : b ∈ u)
    (hnb : b ∉ groupOf u a) :
    groupOf (u \ groupOf u a) b = groupOf u b := by
  have hb' : b ∈ u \ groupOf u a := by
    rw [Finset.mem_sdiff]
    exact ⟨hb, hnb⟩
  ext c
  rw [groupOf_mem _ b hb' c, groupOf_mem u b hb c, Finset.mem_sdiff]
  constructor
  · rintro ⟨⟨hcu, _⟩, hr⟩
    exact ⟨hcu, reachW_mono (Finset.sdiff_subset) hr⟩
  · rintro ⟨hcu, hr⟩
    have hcK : c ∉ groupOf u a := by
      intro hcKmem
      rw [groupOf_mem u a ha c] at hcKmem
      have hca : reachW u c a := reachW_symm ha hcKmem.2
      have hba : reachW u b a := hr.trans hca
      apply hnb
      rw [groupOf_mem u a ha b]
      exact ⟨hb, reachW_symm hb hba⟩
    refine ⟨⟨hcu, hcK⟩, ?_⟩
    refine reachW_avoidP (fun q hq hnq => by rw [Finset.mem_sdiff]; exact ⟨hq, hnq⟩) ?_ hr hcK
    intro p hp q hstep
    rw [groupOf_mem u a ha p] at hp
    rw [groupOf_mem u a ha q]
    exact ⟨hstep.1, hp.2.tail hstep⟩

section SupportProofs

attribute [local irreducible] mrp mrpCall groupOf restOf supportLoop
  supportedSplit iterSupportsList iterSupportsWith

/-! ### Base-seeding characterization -/

theorem seedFold_char (pixels : Finset Cell) :
    ∀ (seeds : List ℤ) (P : Cell → Prop) (st : Finset Cell × Finset Cell),
      (∀ p, P p → ∀ q, fillStep pixels p q → P q) →
      (∀ c, c ∈ st.1 ↔ c ∈ pixels ∧ ¬ P c) →
      (∀ c, c ∈ st.2 ↔ c ∈ pixels ∧ P c) →
      (∀ c, c ∈ (seeds.foldl (fun st x => mrpCall st.1 st.2 ((x, -1) : Cell)) st).1 ↔
          c ∈ pixels ∧ ¬ (P c ∨ ∃ x ∈ seeds, reachW pixels ((x, -1) : Cell) c)) ∧
      (∀ c, c ∈ (seeds.foldl (fun st x => mrpCall st.1 st.2 ((x, -1) : Cell)) st).2 ↔
          c ∈ pixels ∧ (P c ∨ ∃ x ∈ seeds, reachW pixels ((x, -1) : Cell) c)) := by
  intro seeds
  induction seeds with
  | nil =>
    intro P st hP h1 h2
    simp only [List.foldl_nil, List.not_mem_nil, false_and, exists_false, or_false]
    exact ⟨h1, h2⟩
  | cons s ss ih =>
    intro P st hP h1 h2
    simp only [List.foldl_cons]
    set st' := mrpCall st.1 st.2 ((s, -1) : Cell) with hst'
    have hconv : ∀ c, c ∈ pixels → ¬ P c →
        (reachW st.1 ((s, -1) : Cell) c ↔ reachW pixels ((s, -1) : Cell) c) := by
      intro c hcpix hcP
      constructor
      · refine reachW_mono (Finset.subset_iff.mpr ?_)
        intro q hq
        exact ((h1 q).mp hq).1
      · intro hr
        exact reachW_avoidP (fun q _ hnq => (h1 q).mpr ⟨‹q ∈ pixels›, hnq⟩) hP hr hcP
    have h1' : ∀ c, c ∈ st'.1 ↔
        c ∈ pixels ∧ ¬ ((fun c => P c ∨ reachW pixels ((s, -1) : Cell) c) c) := by
      intro c
      rw [hst', mrpCall_fst_mem, h1 c]
      constructor
      · rintro ⟨⟨hcp, hcP⟩, hnr⟩
        exact ⟨hcp, fun hor => hor.elim hcP (fun hr => hnr ((hconv c hcp hcP).mpr hr))⟩
      · rintro ⟨hcp, hnor⟩
        have hcP : ¬ P c := fun h => hnor (Or.inl h)
        exact ⟨⟨hcp, hcP⟩, fun hr => hnor (Or.inr ((hconv c hcp hcP).mp hr))⟩
    have h2' : ∀ c, c ∈ st'.2 ↔
        c ∈ pixels ∧ ((fun c => P c ∨ reachW pixels ((s, -1) : Cell) c) c) := by
      intro c
      rw [hst', mrpCall_snd_mem, h2 c, h1 c]
      constructor
      · rintro (⟨hcp, hPc⟩ | ⟨⟨hcp, hcP⟩, hr⟩)
        · exact ⟨hcp, Or.inl hPc⟩
        · exact ⟨hcp, Or.inr ((hconv c hcp hcP).mp hr)⟩
      · rintro ⟨hcp, hPc | hr⟩
        · exact Or.inl ⟨hcp, hPc⟩
        · by_cases hcP : P c
          · exact Or.inl ⟨hcp, hcP⟩
          · exact Or.inr ⟨⟨hcp, hcP⟩, (hconv c hcp hcP).mpr hr⟩
    have hPstep : ∀ p, (fun c => P c ∨ reachW pixels ((s, -1) : Cell) c) p →
        ∀ q, fillStep pixels p q →
          (fun c => P c ∨ reachW pixels ((s, -1) : Cell) c) q := by
      rintro p (hp | hp) q hstep
      · exact Or.inl (hP p hp q hstep)
      · exact Or.inr (hp.tail hstep)
    obtain ⟨g1, g2⟩ :=
      ih (fun c => P c ∨ reachW pixels ((s, -1) : Cell) c) st' hPstep h1' h2'
    constructor
    · intro c
      rw [g1 c]
      simp only [List.mem_cons, exists_eq_or_imp]
      rw [or_assoc]
    · intro c
      rw [g2 c]
      simp only [List.mem_cons, exists_eq_or_imp]
      rw [or_assoc]

/-- The `unsupported` set after base seeding: the mask cells not
8-connected to any virtual base cell. -/
theorem supportedSplit_fst_mem (pixels : Finset Cell) (c : Cell) :
    c ∈ (supportedSplit pixels).1 ↔ c ∈ pixels ∧ ¬ baseReach pixels c := by
  obtain ⟨g1, _⟩ := seedFold_char pixels baseCols (fun _ => False) (pixels, ∅)
    (fun p hp _ _ => hp.elim) (fun c => by simp) (fun c => by simp)
  rw [supportedSplit, g1 c]
  simp only [false_or, baseReach]

/-- The `supported_by_base` set after base seeding: the mask cells
8-connected to some virtual base cell. -/
theorem supportedSplit_snd_mem (pixels : Finset Cell) (c : Cell) :
    c ∈ (supportedSplit pixels).2 ↔ c ∈ pixels ∧ baseReach pixels c := by
  obtain ⟨_, g2⟩ := seedFold_char pixels baseCols (fun _ => False) (pixels, ∅)
    (fun p hp _ _ => hp.elim) (fun c => by simp) (fun c => by simp)
  rw [supportedSplit, g2 c]
  simp only [false_or, baseReach]

/-! ### Support-loop structure -/

theorem supportLoopList_empty (pick : Finset Cell → Cell) (sbb : Finset Cell) :
    supportLoopList pick sbb ∅ = [] := by
  rw [supportLoopList]
  simp

theorem supportLoopList_step (pick : Finset Cell → Cell) (sbb u : Finset Cell)
    (hne : u.Nonempty) (hpk : pick u ∈ u) :
    supportLoopList pick sbb u =
      strutForGroup sbb (groupOf u (pick u)) ::
        supportLoopList pick sbb (restOf u (pick u)) := by
  rw [supportLoopList]
  rw [dif_pos hne, dif_pos hpk]

theorem supportLoop_emptyset (pick : Finset Cell → Cell) (sbb : Finset Cell) :
    supportLoop pick sbb ∅ = ∅ := by
  rw [supportLoop, supportLoopList_empty]
  rfl

theorem supportLoop_step (pick : Finset Cell → Cell) (sbb u : Finset Cell)
    (hne : u.Nonempty) (hpk : pick u ∈ u) :
    supportLoop pick sbb u =
      insert (strutForGroup sbb (groupOf u (pick u)))
        (supportLoop pick sbb (restOf u (pick u))) := by
  rw [supportLoop, supportLoopList_step pick sbb u hne hpk, List.toFinset_cons, supportLoop]

theorem sdiff_group_subset_erase (u : Finset Cell) (a : Cell) (ha : a ∈ u) :
    u \ groupOf u a ⊆ u.erase a := by
  intro q hq
  rw [Finset.mem_sdiff] at hq
  rw [Finset.mem_erase]
  refine ⟨?_, hq.1⟩
  intro he
  apply hq.2
  rw [he]
  exact mem_groupOf_self u a ha

theorem card_sdiff_group_lt (u : Finset Cell) (a : Cell) (ha : a ∈ u) :
    (u \ groupOf u a).card < u.card :=
  lt_of_le_of_lt (Finset.card_le_card (sdiff_group_subset_erase u a ha))
    (Finset.card_erase_lt_of_mem ha)

theorem restOf_card_lt (u : Finset Cell) (a : Cell) (ha : a ∈ u) :
    (restOf u a).card < u.card :=
  lt_of_le_of_lt (Finset.card_le_card (restOf_subset u a))
    (Finset.card_erase_lt_of_mem ha)

/-- Every unsupported cell belongs to some collected group whose strut
the loop yields. -/
theorem supportLoop_cover (pick : Finset Cell → Cell)
    (hpick : ∀ s : Finset Cell, s.Nonempty → pick s ∈ s) (sbb : Finset Cell) :
    ∀ (n : Nat) (u : Finset Cell), u.card ≤ n → ∀ p ∈ u,
      ∃ (v : Finset Cell) (a : Cell), v ⊆ u ∧ a ∈ v ∧ p ∈ groupOf v a ∧
        strutForGroup sbb (groupOf v a) ∈ supportLoopList pick sbb u := by
  intro n
  induction n with
  | zero =>
    intro u hcard p hp
    rw [Nat.le_zero, Finset.card_eq_zero] at hcard
    subst hcard
    exact absurd hp (Finset.not_mem_empty p)
  | succ n ih =>
    intro u hcard p hp
    have hne : u.Nonempty := ⟨p, hp⟩
    have hpk : pick u ∈ u := hpick u hne
    rw [supportLoopList_step pick sbb u hne hpk]
    by_cases hpg : p ∈ groupOf u (pick u)
    · exact ⟨u, pick u, subset_rfl, hpk, hpg, List.mem_cons_self _ _⟩
    · have hprest : p ∈ restOf u (pick u) := by
        rw [restOf_mem u (pick u) hpk p]
        refine ⟨hp, fun hr => hpg ?_⟩
        rw [groupOf_mem u (pick u) hpk p]
        exact ⟨hp, hr⟩
      have hcard' : (restOf u (pick u)).card ≤ n := by
        have hlt := restOf_card_lt u (pick u) hpk
        omega
      obtain ⟨v, a, hvsub, hav, hpg', hmem⟩ := ih (restOf u (pick u)) hcard' p hprest
      refine ⟨v, a, hvsub.trans ?_, hav, hpg', List.mem_cons_of_mem _ hmem⟩
      exact (restOf_subset u (pick u)).trans (Finset.erase_subset _ _)

/-- Extracting any component first yields the same strut set (the
canonical decomposition behind order independence). -/
theorem supportLoop_extract (pick : Finset Cell → Cell)
    (hpick : ∀ s : Finset Cell, s.Nonempty → pick s ∈ s) (sbb : Finset Cell) :
    ∀ (n : Nat) (u : Finset Cell), u.card ≤ n → ∀ a ∈ u,
      supportLoop pick sbb u =
        insert (strutForGroup sbb (groupOf u a))
          (supportLoop pick sbb (u \ groupOf u a)) := by
  intro n
  induction n with
  | zero =>
    intro u hcard a ha
    rw [Nat.le_zero, Finset.card_eq_zero] at hcard
    subst hcard
    exact absurd ha (Finset.not_mem_empty a)
  | succ n ih =>
    intro u hcard a ha
    have hne : u.Nonempty := ⟨a, ha⟩
    have hm : pick u ∈ u := hpick u hne
    rw [supportLoop_step pick sbb u hne hm, restOf_eq_sdiff u (pick u) hm]
    by_cases hag : a ∈ groupOf u (pick u)
    · rw [groupOf_eq_of_mem u (pick u) a hm ha hag]
    · have ha' : a ∈ u \ groupOf u (pick u) := by
        rw [Finset.mem_sdiff]
        exact ⟨ha, hag⟩
      have hGmcard : (u \ groupOf u (pick u)).card ≤ n := by
        have hlt := card_sdiff_group_lt u (pick u) hm
        omega
      have e1 := ih (u \ groupOf u (pick u)) hGmcard a ha'
      rw [groupOf_sdiff u (pick u) a hm ha hag] at e1
      rw [e1]
      have hmg : pick u ∉ groupOf u a := by
        intro hmem
        rw [mem_groupOf_symm u a (pick u) ha hm] at hmem
        exact hag hmem
      have hm' : pick u ∈ u \ groupOf u a := by
        rw [Finset.mem_sdiff]
        exact ⟨hm, hmg⟩
      have hGacard : (u \ groupOf u a).card ≤ n := by
        have hlt := card_sdiff_group_lt u a ha
        omega
      have e2 := ih (u \ groupOf u a) hGacard (pick u) hm'
      rw [groupOf_sdiff u a (pick u) ha hm hmg] at e2
      rw [e2, sdiff_sdiff_comm]
      rw [Finset.Insert.comm]

/-- The strut set does not depend on the pop order. -/
theorem supportLoop_pick_irrel (p1 p2 : Finset Cell → Cell)
    (h1 : ∀ s : Finset Cell, s.Nonempty → p1 s ∈ s)
    (h2 : ∀ s : Finset Cell, s.Nonempty → p2 s ∈ s) (sbb : Finset Cell) :
    ∀ (n : Nat) (u : Finset Cell), u.card ≤ n →
      supportLoop p1 sbb u = supportLoop p2 sbb u := by
  intro n
  induction n with
  | zero =>
    intro u hcard
    rw [Nat.le_zero, Finset.card_eq_zero] at hcard
    subst hcard
    rw [supportLoop_emptyset p1 sbb, supportLoop_emptyset p2 sbb]
  | succ n ih =>
    intro u hcard
    rcases Finset.eq_empty_or_nonempty u with rfl | hne
    · rw [supportLoop_emptyset p1 sbb, supportLoop_emptyset p2 sbb]
    · have ha : p1 u ∈ u := h1 u hne
      rw [supportLoop_step p1 sbb u hne ha, restOf_eq_sdiff u (p1 u) ha]
      rw [supportLoop_extract p2 h2 sbb (n + 1) u hcard (p1 u) ha]
      have hcard' : (u \ groupOf u (p1 u)).card ≤ n := by
        have hlt := card_sdiff_group_lt u (p1 u) ha
        omega
      rw [ih (u \ groupOf u (p1 u)) hcard']

/-! ### Strut computation lemmas -/

theorem lowestRow_eq_min' (g : Finset Cell) (hg : g.Nonempty) :
    lowestRow g = (g.image Prod.snd).min' (hg.image _) := by
  rw [lowestRow, ← Finset.coe_min' (hg.image _), WithTop.untop'_coe]

theorem lowestRow_le (g : Finset Cell) (hg : g.Nonempty) {c : Cell} (hc : c ∈ g) :
    lowestRow g ≤ c.2 := by
  rw [lowestRow_eq_min' g hg]
  exact Finset.min'_le _ _ (Finset.mem_image_of_mem Prod.snd hc)

theorem mem_lowestXs_iff (g : Finset Cell) (x : ℤ) :
    x ∈ lowestXs g ↔ ((x, lowestRow g) : Cell) ∈ g := by
  rw [lowestXs]
  constructor
  · intro hx
    obtain ⟨c, hc, hcx⟩ := Finset.mem_image.mp hx
    obtain ⟨hcg, hcy⟩ := Finset.mem_filter.mp hc
    have : c = ((x, lowestRow g) : Cell) := by
      apply Prod.ext
      · exact hcx
      · exact hcy
    rw [← this]
    exact hcg
  · intro hx
    refine Finset.mem_image.mpr ⟨((x, lowestRow g) : Cell), ?_, rfl⟩
    exact Finset.mem_filter.mpr ⟨hx, rfl⟩

theorem lowestXs_nonempty (g : Finset Cell) (hg : g.Nonempty) : (lowestXs g).Nonempty := by
  have hmem : (g.image Prod.snd).min' (hg.image _) ∈ g.image Prod.snd :=
    Finset.min'_mem _ _
  obtain ⟨c, hc, hcy⟩ := Finset.mem_image.mp hmem
  refine ⟨c.1, ?_⟩
  rw [mem_lowestXs_iff]
  have : ((c.1, lowestRow g) : Cell) = c := by
    apply Prod.ext
    · rfl
    · rw [lowestRow_eq_min' g hg]
      exact hcy.symm
  rw [this]
  exact hc

theorem centerX_nonneg (g : Finset Cell) (hpos : ∀ c ∈ g, 0 ≤ c.1) : 0 ≤ centerX g := by
  rw [centerX]
  refine div_nonneg (Finset.sum_nonneg ?_) (Nat.cast_nonneg _)
  intro c hc
  exact_mod_cast hpos c hc

theorem pyInt_eq_floor (q : ℚ) (h : 0 ≤ q) : pyInt q = ⌊q⌋ := if_pos h

theorem closestLowestX_spec (g : Finset Cell) (hne : (lowestXs g).Nonempty) :
    closestLowestX g ∈ lowestXs g ∧
      (∀ x ∈ lowestXs g, |centerX g - (closestLowestX g : ℚ)| ≤ |centerX g - (x : ℚ)|) ∧
      (∀ x ∈ lowestXs g,
        |centerX g - (x : ℚ)| = |centerX g - (closestLowestX g : ℚ)| →
          closestLowestX g ≤ x) := by
  have himg : ((lowestXs g).image (fun x : ℤ => |centerX g - (x : ℚ)|)).Nonempty :=
    hne.image _
  have hdmin' : ((lowestXs g).image (fun x : ℤ => |centerX g - (x : ℚ)|)).min.untop' 0 =
      ((lowestXs g).image (fun x : ℤ => |centerX g - (x : ℚ)|)).min' himg := by
    rw [← Finset.coe_min' himg, WithTop.untop'_coe]
  have hdmem : ((lowestXs g).image (fun x : ℤ => |centerX g - (x : ℚ)|)).min.untop' 0 ∈
      (lowestXs g).image (fun x : ℤ => |centerX g - (x : ℚ)|) := by
    rw [hdmin']
    exact Finset.min'_mem _ _
  obtain ⟨x0, hx0, hx0d⟩ := Finset.mem_image.mp hdmem
  have hfne : ((lowestXs g).filter (fun x : ℤ =>
      |centerX g - (x : ℚ)| =
        ((lowestXs g).image (fun x : ℤ => |centerX g - (x : ℚ)|)).min.untop' 0)).Nonempty :=
    ⟨x0, Finset.mem_filter.mpr ⟨hx0, hx0d⟩⟩
  have hcl : closestLowestX g = ((lowestXs g).filter (fun x : ℤ =>
      |centerX g - (x : ℚ)| =
        ((lowestXs g).image (fun x : ℤ => |centerX g - (x : ℚ)|)).min.untop' 0)).min.untop' 0 :=
    rfl
  have hcl' : closestLowestX g = ((lowestXs g).filter (fun x : ℤ =>
      |centerX g - (x : ℚ)| =
        ((lowestXs g).image (fun x : ℤ => |centerX g - (x : ℚ)|)).min.untop' 0)).min' hfne := by
    rw [hcl, ← Finset.coe_min' hfne, WithTop.untop'_coe]
  have hclmem := Finset.min'_mem _ hfne
  rw [← hcl'] at hclmem
  obtain ⟨hcllow, hcld⟩ := Finset.mem_filter.mp hclmem
  refine ⟨hcllow, ?_, ?_⟩
  · intro x hx
    rw [hcld, hdmin']
    exact Finset.min'_le _ _ (Finset.mem_image_of_mem _ hx)
  · intro x hx hxd
    rw [hcl']
    refine Finset.min'_le _ _ ?_
    refine Finset.mem_filter.mpr ⟨hx, ?_⟩
    rw [hxd, hcld]

theorem supportX_nonneg (g : Finset Cell) (hg : g.Nonempty) (hpos : ∀ c ∈ g, 0 ≤ c.1) :
    0 ≤ supportX g := by
  rw [supportX]
  split
  · exact centerX_nonneg g hpos
  · have hmem := (closestLowestX_spec g (lowestXs_nonempty g hg)).1
    rw [mem_lowestXs_iff] at hmem
    exact_mod_cast hpos _ hmem

theorem supportX_form (g : Finset Cell) :
    supportX g = centerX g ∨ ∃ k : ℤ, supportX g = (k : ℚ) := by
  rw [supportX]
  split
  · exact Or.inl rfl
  · exact Or.inr ⟨closestLowestX g, rfl⟩

theorem floor_ceil_supportX_mem (g : Finset Cell) (hg : g.Nonempty)
    (hpos : ∀ c ∈ g, 0 ≤ c.1) :
    ⌊supportX g⌋ ∈ lowestXs g ∧ ⌈supportX g⌉ ∈ lowestXs g := by
  rw [supportX]
  by_cases hif : pyInt (centerX g) ∈ lowestXs g ∧ ⌈centerX g⌉ ∈ lowestXs g
  · rw [if_pos hif]
    have h0 : 0 ≤ centerX g := centerX_nonneg g hpos
    refine ⟨?_, hif.2⟩
    rw [← pyInt_eq_floor _ h0]
    exact hif.1
  · rw [if_neg hif]
    have hmem := (closestLowestX_spec g (lowestXs_nonempty g hg)).1
    constructor
    · rw [Int.floor_intCast]
      exact hmem
    · rw [Int.ceil_intCast]
      exact hmem

theorem highestSupported_isHighest (sbb : Finset Cell) (col lowY : ℤ) :
    IsHighestBelow sbb col lowY (highestSupported sbb col lowY) := by
  rw [highestSupported]
  rcases Finset.eq_empty_or_nonempty
      ((sbb.filter (fun c => c.1 = col ∧ c.2 < lowY)).image Prod.snd) with he | hne
  · right
    constructor
    · rw [he]
      rfl
    · intro y hy hylt
      have : (col, y).2 ∈ (sbb.filter (fun c => c.1 = col ∧ c.2 < lowY)).image Prod.snd :=
        Finset.mem_image_of_mem _ (Finset.mem_filter.mpr ⟨hy, rfl, hylt⟩)
      rw [he] at this
      exact absurd this (Finset.not_mem_empty _)
  · left
    have hmx : ((sbb.filter (fun c => c.1 = col ∧ c.2 < lowY)).image Prod.snd).max.unbot' 0 =
        ((sbb.filter (fun c => c.1 = col ∧ c.2 < lowY)).image Prod.snd).max' hne := by
      rw [← Finset.coe_max' hne, WithBot.unbot'_coe]
    rw [hmx]
    have hmem := Finset.max'_mem _ hne
    obtain ⟨c, hc, hcy⟩ := Finset.mem_image.mp hmem
    obtain ⟨hcs, hccol, hclt⟩ := Finset.mem_filter.mp hc
    have hcpair : c = ((col, ((sbb.filter (fun c => c.1 = col ∧ c.2 < lowY)).image
        Prod.snd).max' hne) : Cell) := by
      apply Prod.ext
      · exact hccol
      · exact hcy
    refine ⟨?_, ?_, ?_⟩
    · rw [← hcpair]
      exact hcs
    · rw [← hcy]
      exact hclt
    · intro y hy hylt
      refine Finset.le_max' _ _ ?_
      exact Finset.mem_image_of_mem _ (Finset.mem_filter.mpr ⟨hy, rfl, hylt⟩)

theorem highestSupported_le (sbb : Finset Cell) (col lowY : ℤ) (h0 : 0 ≤ lowY) :
    highestSupported sbb col lowY ≤ lowY := by
  rcases highestSupported_isHighest sbb col lowY with ⟨_, hlt, _⟩ | ⟨hz, _⟩
  · omega
  · omega

theorem highestSupported_mem_or_zero (sbb : Finset Cell) (col lowY : ℤ) :
    highestSupported sbb col lowY = 0 ∨
      (((col, highestSupported sbb col lowY) : Cell) ∈ sbb ∧
        highestSupported sbb col lowY < lowY) := by
  rcases highestSupported_isHighest sbb col lowY with ⟨hm, hlt, _⟩ | ⟨hz, _⟩
  · exact Or.inr ⟨hm, hlt⟩
  · exact Or.inl hz

/-! ### Connectivity graph lemmas -/

theorem strutForGroup_parts (sbb g : Finset Cell) :
    strutForGroup sbb g = (supportX g,
      min (highestSupported sbb (pyInt (supportX g)) (lowestRow g))
        (highestSupported sbb ⌈supportX g⌉ (lowestRow g)),
      lowestRow g -
        min (highestSupported sbb (pyInt (supportX g)) (lowestRow g))
          (highestSupported sbb ⌈supportX g⌉ (lowestRow g))) := rfl

theorem connStep_symm (m : Finset Cell) (S : Finset (ℚ × ℤ × ℤ)) {a b : Cell}
    (h : connStep m S a b) : connStep m S b a := by
  obtain ⟨ha, hb, h1, h2⟩ := h
  refine ⟨hb, ha, ?_, ?_⟩ <;> omega

theorem conn_reverse (m : Finset Cell) (S : Finset (ℚ × ℤ × ℤ)) {a b : Cell}
    (h : Relation.ReflTransGen (connStep m S) a b) :
    Relation.ReflTransGen (connStep m S) b a := by
  induction h with
  | refl => exact Relation.ReflTransGen.refl
  | tail _ hbc ih => exact Relation.ReflTransGen.head (connStep_symm m S hbc) ih

theorem reachW_to_conn (m : Finset Cell) (S : Finset (ℚ × ℤ × ℤ)) {a b : Cell}
    (ha : occupied m S a) (h : reachW m a b) :
    Relation.ReflTransGen (connStep m S) a b := by
  induction h with
  | refl => exact Relation.ReflTransGen.refl
  | @tail mid c hmid hstep ih =>
    have hmido : occupied m S mid := by
      rcases reachW_mem hmid with heq | hmem
      · rw [heq]; exact ha
      · exact Or.inl hmem
    have hco : occupied m S c := Or.inl hstep.1
    have hadj := (mem_nbrs_iff mid c).mp hstep.2
    exact Relation.ReflTransGen.tail ih ⟨hmido, hco, hadj.1, hadj.2⟩

theorem baseReach_conn (m : Finset Cell) (S : Finset (ℚ × ℤ × ℤ)) (q : Cell)
    (hq : occupied m S q) (hbr : baseReach m q) :
    ∃ b : Cell, isBase b ∧ Relation.ReflTransGen (connStep m S) q b := by
  obtain ⟨x, hx, hr⟩ := hbr
  have hxb : isBase ((x, -1) : Cell) := by
    refine ⟨rfl, ?_, ?_⟩ <;>
      (simp only [baseCols, List.mem_cons, List.not_mem_nil, or_false] at hx; show _; omega)
  have hocc : occupied m S ((x, -1) : Cell) := Or.inr (Or.inl hxb)
  exact ⟨(x, -1), hxb, conn_reverse m S (reachW_to_conn m S hocc hr)⟩

theorem strut_descend (m : Finset Cell) (S : Finset (ℚ × ℤ × ℤ)) (s : ℚ × ℤ × ℤ)
    (hs : s ∈ S) (C : ℤ) (hC : C = ⌊s.1⌋ ∨ C = ⌈s.1⌉) :
    ∀ k : ℕ, (k : ℤ) ≤ s.2.2 →
      Relation.ReflTransGen (connStep m S) ((C, s.2.1 + (k : ℤ)) : Cell)
        ((C, s.2.1) : Cell) := by
  intro k
  induction k with
  | zero =>
    intro _
    have heq : ((C, s.2.1 + ((0 : ℕ) : ℤ)) : Cell) = ((C, s.2.1) : Cell) := by
      apply Prod.ext
      · rfl
      · show s.2.1 + ((0 : ℕ) : ℤ) = s.2.1
        simp
    rw [heq]
  | succ k ih =>
    intro hk
    have hk' : (k : ℤ) ≤ s.2.2 := by push_cast at hk ⊢; omega
    refine Relation.ReflTransGen.head ?_ (ih hk')
    have hocc1 : occupied m S ((C, s.2.1 + ((k + 1 : ℕ) : ℤ)) : Cell) := by
      refine Or.inr (Or.inr ⟨s, hs, hC, ?_, ?_⟩)
      · show s.2.1 ≤ s.2.1 + ((k + 1 : ℕ) : ℤ)
        push_cast
        omega
      · show s.2.1 + ((k + 1 : ℕ) : ℤ) ≤ s.2.1 + s.2.2
        push_cast at hk ⊢
        omega
    have hocc2 : occupied m S ((C, s.2.1 + (k : ℤ)) : Cell) := by
      refine Or.inr (Or.inr ⟨s, hs, hC, ?_, ?_⟩)
      · show s.2.1 ≤ s.2.1 + (k : ℤ)
        omega
      · show s.2.1 + (k : ℤ) ≤ s.2.1 + s.2.2
        omega
    refine ⟨hocc1, hocc2, ?_, ?_⟩
    · show ((C : ℤ) - C).natAbs ≤ 1
      omega
    · show ((s.2.1 + (k : ℤ)) - (s.2.1 + ((k + 1 : ℕ) : ℤ))).natAbs ≤ 1
      push_cast
      omega

theorem strut_to_base (m : Finset Cell) (S : Finset (ℚ × ℤ × ℤ)) (sbb : Finset Cell)
    (hsbb : ∀ c : Cell, c ∈ sbb ↔ c ∈ m ∧ baseReach m c)
    (s : ℚ × ℤ × ℤ) (hsS : s ∈ S) (C : ℤ) (hC : C = ⌊s.1⌋ ∨ C = ⌈s.1⌉)
    (hC0 : 0 ≤ C) (hC7 : C ≤ 7) (hh : 0 ≤ s.2.2)
    (hland : s.2.1 = 0 ∨ ((C, s.2.1) : Cell) ∈ sbb) :
    ∃ b : Cell, isBase b ∧
      Relation.ReflTransGen (connStep m S) ((C, s.2.1 + s.2.2) : Cell) b := by
  have hdesc : Relation.ReflTransGen (connStep m S) ((C, s.2.1 + s.2.2) : Cell)
      ((C, s.2.1) : Cell) := by
    have hto := strut_descend m S s hsS C hC s.2.2.toNat
      (by rw [Int.toNat_of_nonneg hh])
    rw [Int.toNat_of_nonneg hh] at hto
    exact hto
  rcases hland with h0 | hmem
  · refine ⟨(C, -1), ⟨rfl, hC0, hC7⟩, hdesc.trans (Relation.ReflTransGen.single ?_)⟩
    refine ⟨?_, Or.inr (Or.inl ⟨rfl, hC0, hC7⟩), ?_, ?_⟩
    · refine Or.inr (Or.inr ⟨s, hsS, hC, ?_, ?_⟩)
      · show s.2.1 ≤ s.2.1
        omega
      · show s.2.1 ≤ s.2.1 + s.2.2
        omega
    · show ((C : ℤ) - C).natAbs ≤ 1
      omega
    · show ((-1 : ℤ) - s.2.1).natAbs ≤ 1
      omega
  · have hcm := (hsbb _).mp hmem
    obtain ⟨b, hb, hpath⟩ := baseReach_conn m S ((C, s.2.1) : Cell) (Or.inl hcm.1) hcm.2
    exact ⟨b, hb, hdesc.trans hpath⟩

/-- C1: for every 8x8 pixel mask, after `iter_supports` has emitted its
struts, every active pixel is transitively connected to the virtual base
row through 8-connected pixel adjacency together with the emitted strut
bridges. -/
theorem claim_connectivity_completeness
    (pick : Finset Cell → Cell) (hpick : ∀ s : Finset Cell, s.Nonempty → pick s ∈ s)
    (m : Finset Cell) (hm : ∀ c ∈ m, 0 ≤ c.1 ∧ c.1 ≤ 7 ∧ 0 ≤ c.2)
    (p : Cell) (hp : p ∈ m) :
    ∃ b : Cell, isBase b ∧
      Relation.ReflTransGen (connStep m (iterSupportsWith pick m)) p b := by
  by_cases hbr : baseReach m p
  · exact baseReach_conn m _ p (Or.inl hp) hbr
  · have hp0 : p ∈ (supportedSplit m).1 := by
      rw [supportedSplit_fst_mem]
      exact ⟨hp, hbr⟩
    have hu0sub : (supportedSplit m).1 ⊆ m := by
      intro q hq
      rw [supportedSplit_fst_mem] at hq
      exact hq.1
    obtain ⟨v, a, hvsub, hav, hpg, hsl⟩ :=
      supportLoop_cover pick hpick (supportedSplit m).2 (supportedSplit m).1.card
        (supportedSplit m).1 le_rfl p hp0
    have hsS : strutForGroup (supportedSplit m).2 (groupOf v a) ∈ iterSupportsWith pick m := by
      rw [iterSupportsWith, List.mem_toFinset, iterSupportsList]
      exact hsl
    have hvm : v ⊆ m := hvsub.trans hu0sub
    have hgsub : groupOf v a ⊆ m := (groupOf_subset v a hav).trans hvm
    have hgne : (groupOf v a).Nonempty := ⟨a, mem_groupOf_self v a hav⟩
    have hpos : ∀ c ∈ groupOf v a, 0 ≤ c.1 := fun c hc => (hm c (hgsub hc)).1
    have hsx0 : 0 ≤ supportX (groupOf v a) := supportX_nonneg _ hgne hpos
    obtain ⟨hflmem, hclmem⟩ := floor_ceil_supportX_mem _ hgne hpos
    have hsbbchar : ∀ c : Cell, c ∈ (supportedSplit m).2 ↔ c ∈ m ∧ baseReach m c :=
      fun c => supportedSplit_snd_mem m c
    have main : ∀ C : ℤ, C ∈ lowestXs (groupOf v a) →
        (C = ⌊supportX (groupOf v a)⌋ ∨ C = ⌈supportX (groupOf v a)⌉) →
        (strutForGroup (supportedSplit m).2 (groupOf v a)).2.1 =
          highestSupported (supportedSplit m).2 C (lowestRow (groupOf v a)) →
        ∃ b : Cell, isBase b ∧
          Relation.ReflTransGen (connStep m (iterSupportsWith pick m)) p b := by
      intro C hClowXs hCfc hbtC
      have hClow : ((C, lowestRow (groupOf v a)) : Cell) ∈ groupOf v a := by
        rw [← mem_lowestXs_iff]
        exact hClowXs
      have hCm : ((C, lowestRow (groupOf v a)) : Cell) ∈ m := hgsub hClow
      obtain ⟨hC0, hC7, hlow0⟩ := hm _ hCm
      have hreach_pa : reachW v a p := by
        have hpg' := hpg
        rw [groupOf_mem v a hav p] at hpg'
        exact hpg'.2
      have hreach_aC : reachW v a ((C, lowestRow (groupOf v a)) : Cell) := by
        have hClow' := hClow
        rw [groupOf_mem v a hav] at hClow'
        exact hClow'.2
      have hreach_pC : reachW m p ((C, lowestRow (groupOf v a)) : Cell) :=
        reachW_mono hvm ((reachW_symm hav hreach_pa).trans hreach_aC)
      have hpath1 : Relation.ReflTransGen (connStep m (iterSupportsWith pick m)) p
          ((C, lowestRow (groupOf v a)) : Cell) :=
        reachW_to_conn m _ (Or.inl hp) hreach_pC
      have hs1 : (strutForGroup (supportedSplit m).2 (groupOf v a)).1 =
          supportX (groupOf v a) := rfl
      have hbtle : (strutForGroup (supportedSplit m).2 (groupOf v a)).2.1 ≤
          lowestRow (groupOf v a) := by
        rw [hbtC]
        exact highestSupported_le _ _ _ hlow0
      have hsum : (strutForGroup (supportedSplit m).2 (groupOf v a)).2.1 +
          (strutForGroup (supportedSplit m).2 (groupOf v a)).2.2 =
          lowestRow (groupOf v a) := by
        rw [strutForGroup_parts]
        show min _ _ + (lowestRow (groupOf v a) - min _ _) = lowestRow (groupOf v a)
        omega
      have hh : 0 ≤ (strutForGroup (supportedSplit m).2 (groupOf v a)).2.2 := by
        omega
      have hland : (strutForGroup (supportedSplit m).2 (groupOf v a)).2.1 = 0 ∨
          ((C, (strutForGroup (supportedSplit m).2 (groupOf v a)).2.1) : Cell) ∈
            (supportedSplit m).2 := by
        rcases highestSupported_mem_or_zero (supportedSplit m).2 C
            (lowestRow (groupOf v a)) with hz | ⟨hmem, _⟩
        · left
          rw [hbtC, hz]
        · right
          rw [hbtC]
          exact hmem
      have hCfc' : C = ⌊(strutForGroup (supportedSplit m).2 (groupOf v a)).1⌋ ∨
          C = ⌈(strutForGroup (supportedSplit m).2 (groupOf v a)).1⌉ := by
        rw [hs1]
        exact hCfc
      obtain ⟨b, hb, hpath2⟩ := strut_to_base m (iterSupportsWith pick m)
        (supportedSplit m).2 hsbbchar
        (strutForGroup (supportedSplit m).2 (groupOf v a)) hsS C hCfc' hC0 hC7 hh hland
      rw [hsum] at hpath2
      exact ⟨b, hb, hpath1.trans hpath2⟩
    rcases le_total
        (highestSupported (supportedSplit m).2 (pyInt (supportX (groupOf v a)))
          (lowestRow (groupOf v a)))
        (highestSupported (supportedSplit m).2 ⌈supportX (groupOf v a)⌉
          (lowestRow (groupOf v a))) with hle | hle
    · refine main (pyInt (supportX (groupOf v a))) ?_ ?_ ?_
      · rw [pyInt_eq_floor _ hsx0]
        exact hflmem
      · left
        rw [pyInt_eq_floor _ hsx0]
      · rw [strutForGroup_parts]
        exact min_eq_left hle
    · refine main ⌈supportX (groupOf v a)⌉ hclmem (Or.inr rfl) ?_
      rw [strutForGroup_parts]
      exact min_eq_right hle

/-! ### Remaining loop facts and per-claim theorems -/

theorem iterSupportsWith_eq_supportLoop (pick : Finset Cell → Cell) (m : Finset Cell) :
    iterSupportsWith pick m = supportLoop pick (supportedSplit m).2 (supportedSplit m).1 := by
  rw [iterSupportsWith, iterSupportsList, supportLoop]

theorem iterSupports_empty (pick : Finset Cell → Cell) :
    iterSupportsWith pick (∅ : Finset Cell) = ∅ := by
  rw [iterSupportsWith_eq_supportLoop]
  have hfst : (supportedSplit (∅ : Finset Cell)).1 = ∅ := by
    ext c
    rw [supportedSplit_fst_mem]
    simp
  rw [hfst, supportLoop_emptyset]

theorem supportLoopList_mem_form (pick : Finset Cell → Cell) (sbb : Finset Cell) :
    ∀ (n : Nat) (u : Finset Cell), u.card ≤ n →
      ∀ s ∈ supportLoopList pick sbb u, ∃ g : Finset Cell, s = strutForGroup sbb g := by
  intro n
  induction n with
  | zero =>
    intro u hcard s hs
    rw [Nat.le_zero, Finset.card_eq_zero] at hcard
    subst hcard
    rw [supportLoopList_empty] at hs
    exact absurd hs (List.not_mem_nil s)
  | succ n ih =>
    intro u hcard s hs
    rw [supportLoopList] at hs
    by_cases hne : u.Nonempty
    · rw [dif_pos hne] at hs
      by_cases hpk : pick u ∈ u
      · rw [dif_pos hpk] at hs
        rcases List.mem_cons.mp hs with rfl | hs'
        · exact ⟨groupOf u (pick u), rfl⟩
        · refine ih (restOf u (pick u)) ?_ s hs'
          have := restOf_card_lt u (pick u) hpk
          omega
      · rw [dif_neg hpk] at hs
        exact absurd hs (List.not_mem_nil s)
    · rw [dif_neg hne] at hs
      exact absurd hs (List.not_mem_nil s)

/-- C5: `iter_supports` yields the same set of struts no matter in which
order `set.pop` serves the unordered coordinate sets; only the yield
order can differ. -/
theorem claim_order_independence (p1 p2 : Finset Cell → Cell)
    (h1 : ∀ s : Finset Cell, s.Nonempty → p1 s ∈ s)
    (h2 : ∀ s : Finset Cell, s.Nonempty → p2 s ∈ s)
    (m : Finset Cell) :
    iterSupportsWith p1 m = iterSupportsWith p2 m := by
  rw [iterSupportsWith_eq_supportLoop, iterSupportsWith_eq_supportLoop]
  exact supportLoop_pick_irrel p1 p2 h1 h2 (supportedSplit m).2
    (supportedSplit m).1.card (supportedSplit m).1 le_rfl

/-- C8: an all-false 8x8 grid is excluded from rendering by
`App._filter_test` (never treated as an error) and `iter_supports`
yields zero struts on it. -/
theorem claim_empty_mask (img : BitsyImage) (filters : List String)
    (pick : Finset Cell → Cell) (h : img.empty = true) :
    filterTest img filters = false ∧ iterSupportsWith pick img.pixelSet = ∅ := by
  constructor
  · rw [filterTest, if_pos h]
  · have hps : img.pixelSet = ∅ := by
      rw [BitsyImage.pixelSet]
      rw [BitsyImage.empty] at h
      rw [List.isEmpty_iff] at h
      rw [h]
      rfl
    rw [hps, iterSupports_empty]

/-- C2: when the bridging condition does not hold and the two columns of
the group's lowest row are at equal distance from the center of mass,
the strut is placed at the smaller column. -/
theorem claim_tiebreak (sbb g : Finset Cell) (x1 x2 : ℤ)
    (hlow : lowestXs g = {x1, x2}) (hlt : x1 < x2)
    (heq : |centerX g - (x1 : ℚ)| = |centerX g - (x2 : ℚ)|)
    (hnb : ¬ (pyInt (centerX g) ∈ lowestXs g ∧ ⌈centerX g⌉ ∈ lowestXs g)) :
    (strutForGroup sbb g).1 = (x1 : ℚ) := by
  have hne : (lowestXs g).Nonempty := by
    rw [hlow]
    exact ⟨x1, Finset.mem_insert_self _ _⟩
  obtain ⟨hmem, _hmin, hleast⟩ := closestLowestX_spec g hne
  have hcl : closestLowestX g = x1 := by
    rw [hlow] at hmem
    rcases Finset.mem_insert.mp hmem with h | h
    · exact h
    · rw [Finset.mem_singleton] at h
      have hx1mem : x1 ∈ lowestXs g := by
        rw [hlow]
        exact Finset.mem_insert_self _ _
      have hle := hleast x1 hx1mem (by rw [h]; exact heq)
      omega
  have hs1 : (strutForGroup sbb g).1 = supportX g := rfl
  rw [hs1, supportX, if_neg hnb, hcl]

/-- C3: when both the floor and the ceiling of the center of mass lie on
the group's lowest row, the strut is placed at the exact (possibly
fractional) center of mass. -/
theorem claim_bridging (sbb g : Finset Cell) (hpos : ∀ c ∈ g, 0 ≤ c.1)
    (hfl : ⌊centerX g⌋ ∈ lowestXs g) (hcl : ⌈centerX g⌉ ∈ lowestXs g) :
    (strutForGroup sbb g).1 = centerX g := by
  have h0 : 0 ≤ centerX g := centerX_nonneg g hpos
  have hcond : pyInt (centerX g) ∈ lowestXs g ∧ ⌈centerX g⌉ ∈ lowestXs g := by
    refine ⟨?_, hcl⟩
    rw [pyInt_eq_floor _ h0]
    exact hfl
  have hs1 : (strutForGroup sbb g).1 = supportX g := rfl
  rw [hs1, supportX, if_pos hcond]

/-- C4: the emitted strut's `baseTop` is the minimum over the two
bridged columns of the highest `supported_by_base` row strictly below
the group's lowest row (0 when none), and its height is the lowest row
minus `baseTop`. -/
theorem claim_baseTop_height (sbb g : Finset Cell) (hg : g.Nonempty)
    (hpos : ∀ c ∈ g, 0 ≤ c.1) :
    ∃ bL bR : ℤ,
      IsHighestBelow sbb ⌊(strutForGroup sbb g).1⌋ (lowestRow g) bL ∧
      IsHighestBelow sbb ⌈(strutForGroup sbb g).1⌉ (lowestRow g) bR ∧
      (strutForGroup sbb g).2.1 = min bL bR ∧
      (strutForGroup sbb g).2.2 = lowestRow g - min bL bR := by
  have hsx0 : 0 ≤ supportX g := supportX_nonneg g hg hpos
  have hs1 : (strutForGroup sbb g).1 = supportX g := rfl
  refine ⟨highestSupported sbb (pyInt (supportX g)) (lowestRow g),
    highestSupported sbb ⌈supportX g⌉ (lowestRow g), ?_, ?_, ?_, ?_⟩
  · rw [hs1, ← pyInt_eq_floor _ hsx0]
    exact highestSupported_isHighest sbb _ _
  · rw [hs1]
    exact highestSupported_isHighest sbb _ _
  · rw [strutForGroup_parts]
  · rw [strutForGroup_parts]

/-- C6 (amended): every emitted strut's `x` is either an integer column
or the exact center of mass of its group — an arbitrary rational with
denominator up to the group size, not necessarily an integer plus one
half. -/
theorem claim_strut_x_form (pick : Finset Cell → Cell) (m : Finset Cell)
    (s : ℚ × ℤ × ℤ) (hs : s ∈ iterSupportsWith pick m) :
    ∃ g : Finset Cell, s = strutForGroup (supportedSplit m).2 g ∧
      (s.1 = centerX g ∨ ∃ k : ℤ, s.1 = (k : ℚ)) := by
  rw [iterSupportsWith, List.mem_toFinset, iterSupportsList] at hs
  obtain ⟨g, hg⟩ := supportLoopList_mem_form pick (supportedSplit m).2
    (supportedSplit m).1.card (supportedSplit m).1 le_rfl s hs
  refine ⟨g, hg, ?_⟩
  have hsx : s.1 = supportX g := by
    rw [hg, strutForGroup_parts]
  rw [hsx]
  exact supportX_form g

end SupportProofs

/-! ### Pop-order models are valid pops -/

theorem pickLow_mem (s : Finset Cell) (hs : s.Nonempty) : pickLow s ∈ s := by
  rw [pickLow, dif_pos hs]
  have hmem := Finset.min'_mem (s.image Encodable.encode) (hs.image _)
  obtain ⟨c, hc, hcode⟩ := Finset.mem_image.mp hmem
  rw [← hcode, Encodable.encodek]
  exact hc

theorem pickHigh_mem (s : Finset Cell) (hs : s.Nonempty) : pickHigh s ∈ s := by
  rw [pickHigh, dif_pos hs]
  have hmem := Finset.max'_mem (s.image Encodable.encode) (hs.image _)
  obtain ⟨c, hc, hcode⟩ := Finset.mem_image.mp hmem
  rw [← hcode, Encodable.encodek]
  exact hc

/-! ### String-processing lemmas -/

theorem splitNl_ne_nil : ∀ cs : List Char, splitNl cs ≠ [] := by
  intro cs
  cases cs with
  | nil => simp [splitNl]
  | cons c rest =>
    rw [splitNl]
    cases h : splitNl rest with
    | nil => simp
    | cons l ls =>
      by_cases hc : c = '\n'
      · simp [hc]
      · simp [hc]

theorem splitNl_cons_eq (c : Char) (rest : List Char) (l : List Char)
    (ls : List (List Char)) (h : splitNl rest = l :: ls) :
    splitNl (c :: rest) = if c = '\n' then [] :: l :: ls else (c :: l) :: ls := by
  rw [splitNl, h]

theorem splitNl_append_nn : ∀ cs : List Char,
    splitNl (cs ++ ['\n', '\n']) = splitNl cs ++ [[], []] := by
  intro cs
  induction cs with
  | nil => rfl
  | cons c rest ih =>
    obtain ⟨l, ls, h⟩ : ∃ l ls, splitNl rest = l :: ls := by
      cases h : splitNl rest with
      | nil => exact absurd h (splitNl_ne_nil rest)
      | cons l ls => exact ⟨l, ls, rfl⟩
    have h2 : splitNl (rest ++ ['\n', '\n']) = l :: (ls ++ [[], []]) := by
      rw [ih, h]
      rfl
    show splitNl (c :: (rest ++ ['\n', '\n'])) = splitNl (c :: rest) ++ [[], []]
    rw [splitNl_cons_eq c _ _ _ h2, splitNl_cons_eq c _ _ _ h]
    by_cases hc : c = '\n'
    · rw [if_pos hc, if_pos hc]
      rfl
    · rw [if_neg hc, if_neg hc]
      rfl

theorem getD_append_pad (ls : List (List Char)) (hne : ls ≠ []) :
    (ls ++ [[], []]).getD 0 [] = ls.getD 0 [] ∧
      (ls ++ [[], []]).getD 1 [] = ls.getD 1 [] := by
  cases ls with
  | nil => exact absurd rfl hne
  | cons l ls' =>
    refine ⟨rfl, ?_⟩
    cases ls' with
    | nil => rfl
    | cons l2 rest => rfl

/-- C10: only the first two newline-separated lines of the custom text
are embedded as `custom_text_1`/`custom_text_2` (a missing line becomes
the empty string, later lines are silently dropped), and the padded
split always has at least three entries, so the two list indexings in
`openscad_code` never fail. -/
theorem claim_custom_text_lines (t : String) :
    3 ≤ (customTextLines t).length ∧
      customTexts t =
        (openscadStr ((splitNl t.toList).getD 0 []),
          openscadStr ((splitNl t.toList).getD 1 [])) := by
  have hsplit : customTextLines t = splitNl t.toList ++ [[], []] := by
    rw [customTextLines, splitNl_append_nn]
  constructor
  · rw [hsplit, List.length_append]
    have hpos : 0 < (splitNl t.toList).length :=
      List.length_pos.mpr (splitNl_ne_nil t.toList)
    simp only [List.length_cons, List.length_nil]
    omega
  · obtain ⟨h0, h1⟩ := getD_append_pad (splitNl t.toList) (splitNl_ne_nil t.toList)
    rw [customTexts, hsplit, h0, h1]

/-- C7: the OpenSCAD script is a pure function of the pixel grid, the
naming metadata, the display name and the custom text — identical inputs
produce byte-identical output (no hidden state or counters appear in the
assembly). -/
theorem claim_openscad_deterministic (i1 i2 : BitsyImage) (d1 d2 t1 t2 : String)
    (hl : i1.lines = i2.lines) (hn : i1.name = i2.name) (hi : i1.index = i2.index)
    (hid : i1.ident = i2.ident) (hb : i1.blocktype = i2.blocktype)
    (hd : d1 = d2) (ht : t1 = t2) :
    openscadCode i1 d1 t1 = openscadCode i2 d2 t2 := by
  cases i1
  cases i2
  simp only at hl hn hi hid hb
  subst hl
  subst hn
  subst hi
  subst hid
  subst hb
  subst hd
  subst ht
  rfl

theorem collapse_foldr_head : ∀ t : List Char,
    (t.foldr (fun c acc => if c = '_' ∧ acc.head? = some '_' then acc
      else c :: acc) []).head? = t.head? := by
  intro t
  induction t with
  | nil => rfl
  | cons c t ih =>
    rw [List.foldr_cons]
    by_cases hc : c = '_' ∧
        (t.foldr (fun c acc => if c = '_' ∧ acc.head? = some '_' then acc
          else c :: acc) []).head? = some '_'
    · rw [if_pos hc, ih, hc.1]
      rw [ih] at hc
      rw [hc.2]
      rfl
    · rw [if_neg hc]
      rfl

theorem collapse_eq_foldr : ∀ l : List Char,
    collapseUnderscores l =
      l.foldr (fun c acc => if c = '_' ∧ acc.head? = some '_' then acc
        else c :: acc) [] := by
  intro l
  induction l with
  | nil => rfl
  | cons a t ih =>
    cases t with
    | nil =>
      have hneg : ¬(a = '_' ∧ ([] : List Char).head? = some '_') := by
        rintro ⟨h1, h2⟩
        exact Option.noConfusion h2
      rw [collapseUnderscores]
      simp only [List.foldr_cons, List.foldr_nil]
      rw [if_neg hneg]
    | cons b rest =>
      rw [collapseUnderscores, List.foldr_cons, ← ih]
      have hhead : (collapseUnderscores (b :: rest)).head? = some b := by
        rw [ih, collapse_foldr_head]
        rfl
      by_cases hab : a = '_' ∧ b = '_'
      · have hcond : a = '_' ∧ (collapseUnderscores (b :: rest)).head? = some '_' := by
          refine ⟨hab.1, ?_⟩
          rw [hhead, hab.2]
        rw [if_pos hab, if_pos hcond]
      · have hcond : ¬(a = '_' ∧ (collapseUnderscores (b :: rest)).head? = some '_') := by
          rintro ⟨h1, h2⟩
          rw [hhead] at h2
          exact hab ⟨h1, Option.some.inj h2⟩
        rw [if_neg hab, if_neg hcond]

theorem string_append_empty (s : String) : s ++ "" = s := by
  cases s with
  | mk l =>
    show String.mk (l ++ []) = String.mk l
    rw [List.append_nil]

/-- C9 (amended): on ASCII input, `_filename_for_string` (with empty
extension) lowercases the input, replaces every character outside
alphanumeric/{., -, _} by an underscore, and collapses each
maximal run of underscores to a single underscore — it agrees with the
sanitizer written directly from that description. -/
theorem claim_sanitize_amended (s : String)
    (hascii : ∀ c ∈ s.toList, c.toNat < 128) :
    filenameForString s "" = specSanitize s := by
  rw [filenameForString, specSanitize, collapse_eq_foldr, List.map_map,
    string_append_empty]
  rfl


/-! ### Counterexamples and witnesses on concrete inputs -/

theorem m6_strut_mem :
    strutForGroup ∅ ({((3:ℤ),(5:ℤ)), ((4:ℤ),(5:ℤ)), ((3:ℤ),(6:ℤ))} : Finset Cell) ∈
      iterSupportsWith pickLow
        ({((3:ℤ),(5:ℤ)), ((4:ℤ),(5:ℤ)), ((3:ℤ),(6:ℤ))} : Finset Cell) := by
  have hne : ({((3:ℤ),(5:ℤ)), ((4:ℤ),(5:ℤ)), ((3:ℤ),(6:ℤ))} : Finset Cell).Nonempty :=
    ⟨((3:ℤ),(5:ℤ)), by decide⟩
  have hpk := pickLow_mem _ hne
  have hgrp : ∀ a ∈ ({((3:ℤ),(5:ℤ)), ((4:ℤ),(5:ℤ)), ((3:ℤ),(6:ℤ))} : Finset Cell),
      groupOf ({((3:ℤ),(5:ℤ)), ((4:ℤ),(5:ℤ)), ((3:ℤ),(6:ℤ))} : Finset Cell) a =
        ({((3:ℤ),(5:ℤ)), ((4:ℤ),(5:ℤ)), ((3:ℤ),(6:ℤ))} : Finset Cell) ∧
      restOf ({((3:ℤ),(5:ℤ)), ((4:ℤ),(5:ℤ)), ((3:ℤ),(6:ℤ))} : Finset Cell) a = ∅ := by
    decide
  rw [iterSupportsWith_eq_supportLoop]
  have hs1 : (supportedSplit
      ({((3:ℤ),(5:ℤ)), ((4:ℤ),(5:ℤ)), ((3:ℤ),(6:ℤ))} : Finset Cell)).1 =
      ({((3:ℤ),(5:ℤ)), ((4:ℤ),(5:ℤ)), ((3:ℤ),(6:ℤ))} : Finset Cell) := by decide
  have hs2 : (supportedSplit
      ({((3:ℤ),(5:ℤ)), ((4:ℤ),(5:ℤ)), ((3:ℤ),(6:ℤ))} : Finset Cell)).2 =
      (∅ : Finset Cell) := by decide
  rw [hs1, hs2]
  rw [supportLoop_step pickLow ∅ _ hne hpk]
  rw [(hgrp _ hpk).1, (hgrp _ hpk).2, supportLoop_emptyset]
  exact Finset.mem_insert_self _ _

theorem m6_supportX :
    supportX ({((3:ℤ),(5:ℤ)), ((4:ℤ),(5:ℤ)), ((3:ℤ),(6:ℤ))} : Finset Cell) = 10/3 := by
  have hsum : (∑ c ∈ ({((3:ℤ),(5:ℤ)), ((4:ℤ),(5:ℤ)), ((3:ℤ),(6:ℤ))} : Finset Cell),
      (c.1 : ℚ)) = 10 := by
    rw [Finset.sum_insert (by decide), Finset.sum_insert (by decide), Finset.sum_singleton]
    norm_num
  have hcard : ({((3:ℤ),(5:ℤ)), ((4:ℤ),(5:ℤ)), ((3:ℤ),(6:ℤ))} : Finset Cell).card = 3 := by
    decide
  have hcenter : centerX ({((3:ℤ),(5:ℤ)), ((4:ℤ),(5:ℤ)), ((3:ℤ),(6:ℤ))} : Finset Cell) =
      10/3 := by
    rw [centerX, hsum, hcard]
    norm_num
  have hlx : lowestXs ({((3:ℤ),(5:ℤ)), ((4:ℤ),(5:ℤ)), ((3:ℤ),(6:ℤ))} : Finset Cell) =
      ({3, 4} : Finset ℤ) := by decide
  have hfl : ⌊(10:ℚ)/3⌋ = 3 := by
    rw [Int.floor_eq_iff]
    constructor
    · norm_num
    · norm_num
  have hcl : ⌈(10:ℚ)/3⌉ = 4 := by
    rw [Int.ceil_eq_iff]
    constructor
    · norm_num
    · norm_num
  have hcond : pyInt (centerX ({((3:ℤ),(5:ℤ)), ((4:ℤ),(5:ℤ)), ((3:ℤ),(6:ℤ))} : Finset Cell)) ∈
      lowestXs ({((3:ℤ),(5:ℤ)), ((4:ℤ),(5:ℤ)), ((3:ℤ),(6:ℤ))} : Finset Cell) ∧
      ⌈centerX ({((3:ℤ),(5:ℤ)), ((4:ℤ),(5:ℤ)), ((3:ℤ),(6:ℤ))} : Finset Cell)⌉ ∈
      lowestXs ({((3:ℤ),(5:ℤ)), ((4:ℤ),(5:ℤ)), ((3:ℤ),(6:ℤ))} : Finset Cell) := by
    constructor
    · rw [hcenter, pyInt_eq_floor _ (by norm_num), hfl, hlx]
      decide
    · rw [hcenter, hcl, hlx]
      decide
  rw [supportX, if_pos hcond, hcenter]

/-- C6 counterexample: on the mask {(3,5), (4,5), (3,6)} the planner emits
a strut whose `x` is `10/3` — neither an integer column nor an integer plus
one half. -/
theorem claim_strut_x_counterexample :
    ∃ s ∈ iterSupportsWith pickLow
        ({((3:ℤ),(5:ℤ)), ((4:ℤ),(5:ℤ)), ((3:ℤ),(6:ℤ))} : Finset Cell),
      ¬∃ k : ℤ, s.1 = (k : ℚ) ∨ s.1 = (k : ℚ) + 1/2 := by
  refine ⟨strutForGroup ∅ ({((3:ℤ),(5:ℤ)), ((4:ℤ),(5:ℤ)), ((3:ℤ),(6:ℤ))} : Finset Cell),
    m6_strut_mem, ?_⟩
  have hx : (strutForGroup ∅
      ({((3:ℤ),(5:ℤ)), ((4:ℤ),(5:ℤ)), ((3:ℤ),(6:ℤ))} : Finset Cell)).1 = 10/3 := by
    rw [strutForGroup_parts, m6_supportX]
  rw [hx]
  rintro ⟨k, h | h⟩
  · rw [div_eq_iff (by norm_num : (3:ℚ) ≠ 0)] at h
    have h2 : (10 : ℤ) = k * 3 := by exact_mod_cast h
    omega
  · have h7 : (20 : ℚ) = (k : ℚ) * 6 + 3 := by
      rw [div_eq_iff (by norm_num : (3:ℚ) ≠ 0)] at h
      linarith
    have h8 : (20 : ℤ) = k * 6 + 3 := by exact_mod_cast h7
    omega

theorem claim_strut_x_form_witness :
    strutForGroup ∅ ({((3:ℤ),(5:ℤ)), ((4:ℤ),(5:ℤ)), ((3:ℤ),(6:ℤ))} : Finset Cell) ∈
      iterSupportsWith pickLow
        ({((3:ℤ),(5:ℤ)), ((4:ℤ),(5:ℤ)), ((3:ℤ),(6:ℤ))} : Finset Cell) ∧
    ∃ g : Finset Cell,
      strutForGroup ∅ ({((3:ℤ),(5:ℤ)), ((4:ℤ),(5:ℤ)), ((3:ℤ),(6:ℤ))} : Finset Cell) =
        strutForGroup
          (supportedSplit ({((3:ℤ),(5:ℤ)), ((4:ℤ),(5:ℤ)), ((3:ℤ),(6:ℤ))} : Finset Cell)).2 g ∧
      ((strutForGroup ∅ ({((3:ℤ),(5:ℤ)), ((4:ℤ),(5:ℤ)), ((3:ℤ),(6:ℤ))} : Finset Cell)).1 =
          centerX g ∨
        ∃ k : ℤ, (strutForGroup ∅
          ({((3:ℤ),(5:ℤ)), ((4:ℤ),(5:ℤ)), ((3:ℤ),(6:ℤ))} : Finset Cell)).1 = (k : ℚ)) :=
  ⟨m6_strut_mem, claim_strut_x_form pickLow _ _ m6_strut_mem⟩

/-- C9 counterexample: the alphanumeric character `A` is not preserved
unchanged — `_filename_for_string('A', '')` returns `a`. -/
theorem claim_sanitize_counterexample :
    filenameForString "A" "" = "a" ∧ ("a" : String) ≠ "A" := by
  constructor
  · rfl
  · decide

theorem claim_sanitize_amended_witness :
    (∀ c ∈ ("Hello, World!" : String).toList, c.toNat < 128) ∧
      filenameForString "Hello, World!" "" = specSanitize "Hello, World!" :=
  ⟨by decide, claim_sanitize_amended "Hello, World!" (by decide)⟩

theorem claim_connectivity_completeness_witness :
    ((0:ℤ),(0:ℤ)) ∈ ({((0:ℤ),(0:ℤ))} : Finset Cell) ∧
    ∃ b : Cell, isBase b ∧
      Relation.ReflTransGen
        (connStep ({((0:ℤ),(0:ℤ))} : Finset Cell)
          (iterSupportsWith pickLow ({((0:ℤ),(0:ℤ))} : Finset Cell)))
        ((0:ℤ),(0:ℤ)) b :=
  ⟨by decide,
    claim_connectivity_completeness pickLow pickLow_mem _ (by decide) _ (by decide)⟩

theorem claim_order_independence_witness :
    iterSupportsWith pickLow ({((2:ℤ),(3:ℤ)), ((5:ℤ),(0:ℤ))} : Finset Cell) =
      iterSupportsWith pickHigh ({((2:ℤ),(3:ℤ)), ((5:ℤ),(0:ℤ))} : Finset Cell) :=
  claim_order_independence pickLow pickHigh pickLow_mem pickHigh_mem _

theorem claim_empty_mask_witness :
    (BitsyImage.mk [['0','0'],['0','0']] "sprite" 0 "a" "SPR").empty = true ∧
    (filterTest (BitsyImage.mk [['0','0'],['0','0']] "sprite" 0 "a" "SPR") [] = false ∧
      iterSupportsWith pickLow
        (BitsyImage.mk [['0','0'],['0','0']] "sprite" 0 "a" "SPR").pixelSet = ∅) :=
  ⟨by decide, claim_empty_mask _ [] pickLow (by decide)⟩

theorem claim_openscad_deterministic_witness :
    openscadCode (BitsyImage.mk [['1']] "sprite" 0 "a" "SPR") "disp" "txt" =
      openscadCode (BitsyImage.mk [['1']] "sprite" 0 "a" "SPR") "disp" "txt" :=
  claim_openscad_deterministic _ _ _ _ _ _ rfl rfl rfl rfl rfl rfl rfl

theorem claim_tiebreak_witness :
    lowestXs ({((2:ℤ),(1:ℤ)), ((5:ℤ),(1:ℤ)), ((3:ℤ),(2:ℤ)), ((4:ℤ),(2:ℤ))} : Finset Cell) =
      ({2, 5} : Finset ℤ) ∧
    (strutForGroup ∅
      ({((2:ℤ),(1:ℤ)), ((5:ℤ),(1:ℤ)), ((3:ℤ),(2:ℤ)), ((4:ℤ),(2:ℤ))} : Finset Cell)).1 =
      ((2:ℤ) : ℚ) := by
  have hsum : (∑ c ∈ ({((2:ℤ),(1:ℤ)), ((5:ℤ),(1:ℤ)), ((3:ℤ),(2:ℤ)), ((4:ℤ),(2:ℤ))} :
      Finset Cell), (c.1 : ℚ)) = 14 := by
    rw [Finset.sum_insert (by decide), Finset.sum_insert (by decide),
      Finset.sum_insert (by decide), Finset.sum_singleton]
    norm_num
  have hcard : ({((2:ℤ),(1:ℤ)), ((5:ℤ),(1:ℤ)), ((3:ℤ),(2:ℤ)), ((4:ℤ),(2:ℤ))} :
      Finset Cell).card = 4 := by decide
  have hcenter : centerX ({((2:ℤ),(1:ℤ)), ((5:ℤ),(1:ℤ)), ((3:ℤ),(2:ℤ)), ((4:ℤ),(2:ℤ))} :
      Finset Cell) = 7/2 := by
    rw [centerX, hsum, hcard]
    norm_num
  have hlx : lowestXs ({((2:ℤ),(1:ℤ)), ((5:ℤ),(1:ℤ)), ((3:ℤ),(2:ℤ)), ((4:ℤ),(2:ℤ))} :
      Finset Cell) = ({2, 5} : Finset ℤ) := by decide
  have hd1 : (7:ℚ)/2 - ((2:ℤ) : ℚ) = 3/2 := by
    push_cast
    norm_num
  have hd2 : (7:ℚ)/2 - ((5:ℤ) : ℚ) = -(3/2) := by
    push_cast
    norm_num
  have hfl : ⌊(7:ℚ)/2⌋ = 3 := by
    rw [Int.floor_eq_iff]
    constructor
    · norm_num
    · norm_num
  refine ⟨hlx, claim_tiebreak ∅ _ 2 5 hlx (by decide) ?_ ?_⟩
  · rw [hcenter, hd1, hd2, abs_neg]
  · rintro ⟨hmem, _⟩
    rw [hcenter, pyInt_eq_floor _ (by norm_num), hfl, hlx] at hmem
    exact absurd hmem (by decide)

theorem claim_bridging_witness :
    (strutForGroup ∅
      ({((3:ℤ),(5:ℤ)), ((4:ℤ),(5:ℤ)), ((3:ℤ),(6:ℤ)), ((4:ℤ),(6:ℤ))} : Finset Cell)).1 =
      centerX ({((3:ℤ),(5:ℤ)), ((4:ℤ),(5:ℤ)), ((3:ℤ),(6:ℤ)), ((4:ℤ),(6:ℤ))} : Finset Cell) := by
  have hsum : (∑ c ∈ ({((3:ℤ),(5:ℤ)), ((4:ℤ),(5:ℤ)), ((3:ℤ),(6:ℤ)), ((4:ℤ),(6:ℤ))} :
      Finset Cell), (c.1 : ℚ)) = 14 := by
    rw [Finset.sum_insert (by decide), Finset.sum_insert (by decide),
      Finset.sum_insert (by decide), Finset.sum_singleton]
    norm_num
  have hcard : ({((3:ℤ),(5:ℤ)), ((4:ℤ),(5:ℤ)), ((3:ℤ),(6:ℤ)), ((4:ℤ),(6:ℤ))} :
      Finset Cell).card = 4 := by decide
  have hcenter : centerX ({((3:ℤ),(5:ℤ)), ((4:ℤ),(5:ℤ)), ((3:ℤ),(6:ℤ)), ((4:ℤ),(6:ℤ))} :
      Finset Cell) = 7/2 := by
    rw [centerX, hsum, hcard]
    norm_num
  have hlx : lowestXs ({((3:ℤ),(5:ℤ)), ((4:ℤ),(5:ℤ)), ((3:ℤ),(6:ℤ)), ((4:ℤ),(6:ℤ))} :
      Finset Cell) = ({3, 4} : Finset ℤ) := by decide
  have hfl : ⌊(7:ℚ)/2⌋ = 3 := by
    rw [Int.floor_eq_iff]
    constructor
    · norm_num
    · norm_num
  have hcl : ⌈(7:ℚ)/2⌉ = 4 := by
    rw [Int.ceil_eq_iff]
    constructor
    · norm_num
    · norm_num
  refine claim_bridging ∅ _ (by decide) ?_ ?_
  · rw [hcenter, hfl, hlx]
    decide
  · rw [hcenter, hcl, hlx]
    decide

theorem claim_baseTop_height_witness :
    ∃ bL bR : ℤ,
      IsHighestBelow ∅ ⌊(strutForGroup ∅ ({((3:ℤ),(5:ℤ))} : Finset Cell)).1⌋
        (lowestRow ({((3:ℤ),(5:ℤ))} : Finset Cell)) bL ∧
      IsHighestBelow ∅ ⌈(strutForGroup ∅ ({((3:ℤ),(5:ℤ))} : Finset Cell)).1⌉
        (lowestRow ({((3:ℤ),(5:ℤ))} : Finset Cell)) bR ∧
      (strutForGroup ∅ ({((3:ℤ),(5:ℤ))} : Finset Cell)).2.1 = min bL bR ∧
      (strutForGroup ∅ ({((3:ℤ),(5:ℤ))} : Finset Cell)).2.2 =
        lowestRow ({((3:ℤ),(5:ℤ))} : Finset Cell) - min bL bR :=
  claim_baseTop_height ∅ ({((3:ℤ),(5:ℤ))} : Finset Cell) ⟨((3:ℤ),(5:ℤ)), by decide⟩
    (by decide)

end BitsyFigurine